import Mathlib

/-!
# Verification of the bzr smart-protocol and merge core against its specification

This development gives a shallow embedding of the components of the repository
that the frozen claims are about:

* the length-prefixed body decoder and the chunked body decoder of the smart
  protocol (protocol v1/v2 framing);
* protocol version detection on server stream mediums;
* the version-one server-side protocol state machine and the pipe-like server
  medium serve loop;
* the client stream medium request phase state machine;
* the conflict record serialization;
* the three-way per-entry merge classification;
* the tree-transform rename application engine;
* the bencode codec (`bzrlib/util/_bencode_py.py`).

The bencode codec is embedded directly from its Python source, which is part
of the repository.  The other components' implementations are not part of the
source tree here (only their unit tests are), so they are modelled from the
specification, with the unit tests in `bzrlib/tests/` pinning the observable
behaviour at concrete inputs.  Byte strings are embedded as `List Char`
(each `Char` standing for one byte of the Python `str` values involved).
-/

set_option maxHeartbeats 1000000

namespace Bazaar

/-! ## Byte strings and line splitting -/

/-- Byte strings of the wire protocol, one `Char` per byte. -/
abbrev Bytes := List Char

/-- Whether a newline byte occurs in the string (Python `'\n' in s` /
`s.find('\n') != -1`). -/
def hasNL (s : Bytes) : Bool := s.any (fun c => c = '\n')

/-- The first line of `s`, up to and including the first newline; all of `s`
when `s` holds no newline (Python `s[:s.find('\n')+1]` in the found case). -/
def takeLine : Bytes → Bytes
  | [] => []
  | c :: cs => if c = '\n' then ['\n'] else c :: takeLine cs

/-- Everything after the first newline of `s`; empty when `s` holds no
newline. -/
def dropLine : Bytes → Bytes
  | [] => []
  | c :: cs => if c = '\n' then cs else dropLine cs

theorem hasNL_append (a b : Bytes) : hasNL (a ++ b) = (hasNL a || hasNL b) := by
  simp [hasNL, List.any_append]

theorem takeLine_append_of_hasNL {a : Bytes} (b : Bytes) (h : hasNL a = true) :
    takeLine (a ++ b) = takeLine a := by
  induction a with
  | nil => simp [hasNL] at h
  | cons c cs ih =>
    by_cases hc : c = '\n'
    · simp [takeLine, hc]
    · have : hasNL cs = true := by
        simpa [hasNL, hc] using h
      simp [takeLine, hc, ih this]

theorem dropLine_append_of_hasNL {a : Bytes} (b : Bytes) (h : hasNL a = true) :
    dropLine (a ++ b) = dropLine a ++ b := by
  induction a with
  | nil => simp [hasNL] at h
  | cons c cs ih =>
    by_cases hc : c = '\n'
    · simp [dropLine, hc]
    · have : hasNL cs = true := by
        simpa [hasNL, hc] using h
      simp [dropLine, hc, ih this]

theorem takeLine_append_of_not_hasNL {a : Bytes} (b : Bytes) (h : hasNL a = false) :
    takeLine (a ++ b) = a ++ takeLine b := by
  induction a with
  | nil => simp
  | cons c cs ih =>
    have hc : ¬(c = '\n') := by
      intro hc; simp [hasNL, hc] at h
    have : hasNL cs = false := by
      simpa [hasNL, hc] using h
    simp [takeLine, hc, ih this]

theorem dropLine_append_of_not_hasNL {a : Bytes} (b : Bytes) (h : hasNL a = false) :
    dropLine (a ++ b) = dropLine b := by
  induction a with
  | nil => simp
  | cons c cs ih =>
    have hc : ¬(c = '\n') := by
      intro hc; simp [hasNL, hc] at h
    have : hasNL cs = false := by
      simpa [hasNL, hc] using h
    simp [dropLine, hc, ih this]

theorem takeLine_cons_nl (u : Bytes) : takeLine ('\n' :: u) = ['\n'] := by
  simp [takeLine]

theorem dropLine_cons_nl (u : Bytes) : dropLine ('\n' :: u) = u := by
  simp [dropLine]

theorem takeLine_of_not_hasNL {a : Bytes} (h : hasNL a = false) : takeLine a = a := by
  have := takeLine_append_of_not_hasNL (a := a) [] h
  simpa [takeLine] using this

theorem dropLine_of_not_hasNL {a : Bytes} (h : hasNL a = false) : dropLine a = [] := by
  have := dropLine_append_of_not_hasNL (a := a) [] h
  simpa [dropLine] using this

theorem takeLine_append_dropLine (s : Bytes) : takeLine s ++ dropLine s = s := by
  induction s with
  | nil => rfl
  | cons c cs ih =>
    by_cases hc : c = '\n'
    · simp [takeLine, dropLine, hc]
    · simp [takeLine, dropLine, hc, ih]

theorem length_dropLine_lt {s : Bytes} (h : hasNL s = true) :
    (dropLine s).length < s.length := by
  induction s with
  | nil => simp [hasNL] at h
  | cons c cs ih =>
    by_cases hc : c = '\n'
    · simp [dropLine, hc]
    · have : hasNL cs = true := by
        simpa [hasNL, hc] using h
      simpa [dropLine, hc] using Nat.lt_succ_of_lt (ih this)

theorem length_takeLine_pos {s : Bytes} (h : s ≠ []) : 0 < (takeLine s).length := by
  cases s with
  | nil => exact absurd rfl h
  | cons c cs =>
    by_cases hc : c = '\n' <;> simp [takeLine, hc]

/-! ## Decimal digit strings

Used by the length prefixes of the v1 body framing and by the bencode codec
(`str(n)` on the encoding side, `int(s)` on the decoding side). -/

/-- The ASCII digit character for a digit value (`chr(48 + d)`). -/
def digitChar (d : Nat) : Char := Char.ofNat (48 + d)

/-- Whether a byte is an ASCII decimal digit. -/
def isDigitCh (c : Char) : Bool := 48 ≤ c.toNat && c.toNat ≤ 57

/-- The digit value of an ASCII digit byte. -/
def digitVal (c : Char) : Nat := c.toNat - 48

/-- Python `str(n)` for a natural number: decimal digits, no sign, no leading
zeros (and `"0"` for zero). -/
def natRepr (n : Nat) : Bytes :=
  if n = 0 then ['0'] else ((Nat.digits 10 n).map digitChar).reverse

/-- Python `int(s)` restricted to nonempty all-digit strings; other inputs
(the empty string, strings with non-digit bytes) are rejected.  This is the
form every length prefix produced by the encoders takes. -/
def parseDigits (s : Bytes) : Option Nat :=
  match s with
  | [] => none
  | _ =>
    if s.all isDigitCh then
      some (Nat.ofDigits 10 ((s.map digitVal).reverse))
    else none

theorem digitVal_digitChar {d : Nat} (h : d < 10) : digitVal (digitChar d) = d := by
  interval_cases d <;> decide

theorem isDigitCh_digitChar {d : Nat} (h : d < 10) : isDigitCh (digitChar d) = true := by
  interval_cases d <;> decide

theorem isDigitCh_ne_of_lt {c x : Char} (hc : isDigitCh c = true)
    (hx : x.toNat < 48 ∨ 57 < x.toNat) : c ≠ x := by
  intro he
  subst he
  simp only [isDigitCh, Bool.and_eq_true, decide_eq_true_eq] at hc
  omega

theorem natRepr_all_digits (n : Nat) : (natRepr n).all isDigitCh = true := by
  unfold natRepr
  by_cases h : n = 0
  · subst h; decide
  · simp only [h, if_false]
    rw [List.all_eq_true]
    intro c hc
    rw [List.mem_reverse, List.mem_map] at hc
    obtain ⟨d, hd, rfl⟩ := hc
    exact isDigitCh_digitChar (Nat.digits_lt_base (by norm_num) hd)

theorem mem_natRepr_isDigitCh {n : Nat} {c : Char} (h : c ∈ natRepr n) :
    isDigitCh c = true := by
  have := natRepr_all_digits n
  rw [List.all_eq_true] at this
  exact this c h

theorem natRepr_ne_nil (n : Nat) : natRepr n ≠ [] := by
  unfold natRepr
  by_cases h : n = 0
  · simp [h]
  · simp only [h, if_false]
    simp [Nat.digits_ne_nil_iff_ne_zero.mpr h]

theorem parseDigits_natRepr (n : Nat) : parseDigits (natRepr n) = some n := by
  unfold parseDigits
  have hne := natRepr_ne_nil n
  have hall := natRepr_all_digits n
  match hrepr : natRepr n with
  | [] => exact absurd hrepr hne
  | c :: cs =>
    rw [hrepr] at hall
    simp only [hall, if_true]
    rw [← hrepr]
    congr 1
    unfold natRepr
    by_cases h : n = 0
    · simp [h, digitVal, Nat.ofDigits]
    · simp only [h, if_false, List.map_reverse, List.reverse_reverse, List.map_map]
      have hmap : ∀ l : List Nat, (∀ d ∈ l, d < 10) →
          l.map (digitVal ∘ digitChar) = l := by
        intro l hl
        induction l with
        | nil => rfl
        | cons d ds ih =>
          simp only [List.map_cons, Function.comp_apply,
            digitVal_digitChar (hl d (List.mem_cons_self d ds)),
            ih (fun x hx => hl x (List.mem_cons_of_mem d hx))]
      rw [hmap _ (fun d hd => Nat.digits_lt_base (by norm_num) hd)]
      exact Nat.ofDigits_digits 10 n

theorem natRepr_not_hasNL (n : Nat) : hasNL (natRepr n) = false := by
  rw [hasNL, List.any_eq_false]
  intro c hc
  have := isDigitCh_ne_of_lt (mem_natRepr_isDigitCh hc) (x := '\n') (Or.inl (by decide))
  simpa using this

/-! ## Prefix test -/

/-- Python `s.startswith(pre)`. -/
def startsWith : Bytes → Bytes → Bool
  | _, [] => true
  | [], _ :: _ => false
  | c :: cs, p :: ps => c = p && startsWith cs ps

theorem startsWith_append (pre rest : Bytes) : startsWith (pre ++ rest) pre = true := by
  induction pre with
  | nil => cases rest <;> rfl
  | cons c cs ih => simpa [startsWith] using ih

theorem startsWith_iff_exists (s pre : Bytes) :
    startsWith s pre = true ↔ ∃ rest, s = pre ++ rest := by
  constructor
  · intro h
    induction pre generalizing s with
    | nil => exact ⟨s, rfl⟩
    | cons p ps ih =>
      cases s with
      | nil => simp [startsWith] at h
      | cons c cs =>
        simp only [startsWith, Bool.and_eq_true, decide_eq_true_eq] at h
        obtain ⟨rest, hrest⟩ := ih cs h.2
        exact ⟨rest, by simp [h.1, hrest]⟩
  · rintro ⟨rest, rfl⟩
    exact startsWith_append pre rest

/-! ## Length-prefixed body decoder (protocol v1 bodies)

Modelled from the spec: the implementation (`LengthPrefixedBodyDecoder` in
`bzrlib/smart/protocol.py`) is not part of this source tree; only its unit
tests are (`bzrlib/tests/test_smart_transport.py`, class
`LengthPrefixedBodyDecoder`).  The model follows §4.1 of the spec — states
AwaitingLength → AwaitingContent(remaining) → AwaitingTerminator → Done, with
`accept_bytes` callable at arbitrary split points — and is pinned at every
observable point (states, `next_read_size`, `read_pending_data`,
`unused_data`) by those tests: the initial hint is 6, the hint while reading
the body is `remaining + 5`, the hint while reading the terminator is
`5 - len(trailer)`, and the hint once fully done is 1 (tests
`test_accept_bytes` and `test_accept_bytes_all_at_once_with_excess`).
A length prefix that is not a decimal integer is a decode error. -/

/-- The v1 body terminator token, `"done\n"`. -/
def doneMarker : Bytes := 'd' :: 'o' :: 'n' :: 'e' :: '\n' :: []

inductive LPState where
  | expectingLength
  | readingBody
  | readingTrailer
  | readingUnused
deriving DecidableEq, Repr

inductive LPError where
  | invalidLengthPrefix
deriving DecidableEq, Repr

structure LengthPrefixedBodyDecoder where
  state : LPState
  /-- Content bytes still to be received; meaningful (and positive) between
  calls only in the `readingBody` state. -/
  bytesLeft : Int
  /-- The partial length line, then the accumulated (undrained) body data. -/
  inBuffer : Bytes
  trailerBuffer : Bytes
  unusedData : Bytes
  finishedReading : Bool
deriving DecidableEq, Repr

def initLPD : LengthPrefixedBodyDecoder :=
  { state := .expectingLength, bytesLeft := 0, inBuffer := [],
    trailerBuffer := [], unusedData := [], finishedReading := false }

/-- Terminator check: once the trailer buffer starts with `"done\n"`, reading
is finished and the bytes past the terminator become `unused_data`. -/
def lpTrailerCheck (d : LengthPrefixedBodyDecoder) : LengthPrefixedBodyDecoder :=
  if startsWith d.trailerBuffer doneMarker then
    { d with state := .readingUnused,
             unusedData := d.trailerBuffer.drop 5,
             finishedReading := true }
  else d

/-- Body state: consume the declared number of content bytes; any surplus in
this call is the start of the trailer. -/
def lpBodyStep (d : LengthPrefixedBodyDecoder) (bs : Bytes) : LengthPrefixedBodyDecoder :=
  let buf := d.inBuffer ++ bs
  let bl : Int := d.bytesLeft - bs.length
  if bl ≤ 0 then
    let d' :=
      if bl = 0 then
        { d with inBuffer := buf, bytesLeft := 0, state := .readingTrailer }
      else
        let keep := (-bl).toNat
        { d with inBuffer := buf.take (buf.length - keep),
                 trailerBuffer := buf.drop (buf.length - keep),
                 bytesLeft := 0, state := .readingTrailer }
    lpTrailerCheck d'
  else
    { d with inBuffer := buf, bytesLeft := bl }

/-- `accept_bytes`: may be called with arbitrarily sized, arbitrarily split
input. -/
def lpAccept (d : LengthPrefixedBodyDecoder) (bs : Bytes) :
    Except LPError LengthPrefixedBodyDecoder :=
  match d.state with
  | .readingUnused => .ok { d with unusedData := d.unusedData ++ bs }
  | .readingTrailer => .ok (lpTrailerCheck { d with trailerBuffer := d.trailerBuffer ++ bs })
  | .readingBody => .ok (lpBodyStep d bs)
  | .expectingLength =>
    let buf := d.inBuffer ++ bs
    if hasNL buf then
      match parseDigits (takeLine buf).dropLast with
      | none => .error .invalidLengthPrefix
      | some n =>
        .ok (lpBodyStep { d with state := .readingBody, bytesLeft := (n : Int),
                                 inBuffer := [] } (dropLine buf))
    else .ok { d with inBuffer := buf }

/-- `next_read_size()`: the minimum number of bytes needed to make progress
(6 for the shortest possible length line plus terminator, remaining body plus
5 while reading content, the remainder of the terminator afterwards, and 1
once fully done). -/
def lpNextReadSize (d : LengthPrefixedBodyDecoder) : Int :=
  match d.state with
  | .expectingLength => 6
  | .readingBody => d.bytesLeft + 5
  | .readingTrailer => 5 - (d.trailerBuffer.length : Int)
  | .readingUnused => 1

/-- `read_pending_data()`: drain the accumulated content (never returns the
same bytes twice). -/
def lpReadPendingData (d : LengthPrefixedBodyDecoder) :
    Bytes × LengthPrefixedBodyDecoder :=
  match d.state with
  | .expectingLength => ([], d)
  | _ => (d.inBuffer, { d with inBuffer := [] })

/-- A complete, well-formed v1 body for content `s`: decimal length line,
content, `"done\n"` terminator. -/
def lpPayload (s : Bytes) : Bytes :=
  natRepr s.length ++ '\n' :: (s ++ doneMarker)

theorem hasNL_take_of_not_hasNL {a : Bytes} (h : hasNL a = false) (k : Nat) :
    hasNL (a.take k) = false := by
  rw [hasNL, List.any_eq_false] at h ⊢
  intro c hc
  exact h c (List.take_subset k a hc)

theorem lpBodyStep_entry (n : Nat) (u : Bytes) :
    lpBodyStep { state := .readingBody, bytesLeft := (n : Int), inBuffer := [],
                 trailerBuffer := [], unusedData := [], finishedReading := false } u =
    (if u.length < n then
      { state := .readingBody, bytesLeft := ((n : Int) - u.length), inBuffer := u,
        trailerBuffer := [], unusedData := [], finishedReading := false }
     else if u.length = n then
      { state := .readingTrailer, bytesLeft := 0, inBuffer := u,
        trailerBuffer := [], unusedData := [], finishedReading := false }
     else
      lpTrailerCheck
        { state := .readingTrailer, bytesLeft := 0, inBuffer := u.take n,
          trailerBuffer := u.drop n, unusedData := [], finishedReading := false }) := by
  unfold lpBodyStep
  simp only [List.nil_append]
  by_cases hlt : u.length < n
  · have h1 : ¬((n : Int) - u.length ≤ 0) := by omega
    have h2 : ¬(u.length = n) := by omega
    simp [h1, hlt, h2]
  · have h1 : (n : Int) - u.length ≤ 0 := by omega
    by_cases heq : u.length = n
    · have h2 : (n : Int) - u.length = 0 := by omega
      simp only [h1, if_true, h2, if_pos rfl, hlt, if_false, heq, if_pos rfl]
      unfold lpTrailerCheck
      simp [startsWith, doneMarker]
    · have h2 : ¬((n : Int) - u.length = 0) := by omega
      have h3 : (-(((n : Int) - u.length))).toNat = u.length - n := by omega
      have h4 : u.length - (u.length - n) = n := by omega
      simp only [h1, if_true, h2, if_false, hlt, heq, h3, h4]

theorem startsWith_take_doneMarker_eq_false {t : Nat} (h : t < 5) :
    startsWith (doneMarker.take t) doneMarker = false := by
  interval_cases t <;> decide

/-- The decoder state reached by handing the first `k` bytes of a well-formed
payload (with arbitrary excess appended) to a fresh decoder in one call:
`accept_bytes` succeeds, the read hint is always positive, the decoder is
finished exactly when the whole payload (terminator included) is in, and the
hint is exactly 1 once finished. -/
theorem lpAccept_take_payload (s excess : Bytes) (k : Nat) :
    ∃ d, lpAccept initLPD ((lpPayload s ++ excess).take k) = .ok d ∧
      1 ≤ lpNextReadSize d ∧
      (d.finishedReading = true ↔ (lpPayload s).length ≤ k) ∧
      (d.finishedReading = true → lpNextReadSize d = 1) := by
  set L := natRepr s.length with hL
  set n := s.length with hn
  have hLnl : hasNL L = false := natRepr_not_hasNL n
  have hdml : doneMarker.length = 5 := by decide
  have hinput : lpPayload s ++ excess = L ++ '\n' :: (s ++ doneMarker ++ excess) := by
    simp [lpPayload, hL, hn]
  have hplen : (lpPayload s).length = L.length + 1 + n + 5 := by
    simp [lpPayload, doneMarker, hL, hn]
    omega
  by_cases hk : k ≤ L.length
  · -- still inside the length line: no newline yet
    have htake : (lpPayload s ++ excess).take k = L.take k := by
      rw [hinput, List.take_append_eq_append_take, Nat.sub_eq_zero_of_le hk]
      simp
    refine ⟨{ initLPD with inBuffer := L.take k }, ?_, ?_, ?_, ?_⟩
    · rw [htake]
      unfold lpAccept initLPD
      simp [hasNL_take_of_not_hasNL hLnl]
    · simp [lpNextReadSize, initLPD]
    · simp only [initLPD, Bool.false_eq_true, false_iff]
      rw [hplen]
      omega
    · intro habs
      simp [initLPD] at habs
  · -- the whole length line has arrived
    push_neg at hk
    set j := k - (L.length + 1) with hj
    set w := s ++ doneMarker ++ excess with hw
    have htake : (lpPayload s ++ excess).take k = L ++ '\n' :: w.take j := by
      rw [hinput, List.take_append_eq_append_take,
        List.take_of_length_le (by omega)]
      congr 1
      have h1 : k - L.length = (k - L.length - 1) + 1 := by omega
      have h2 : k - L.length - 1 = j := by omega
      rw [h1, List.take_succ_cons, h2]
    set u := w.take j with hu
    have hstep : lpAccept initLPD ((lpPayload s ++ excess).take k) =
        .ok (lpBodyStep { state := .readingBody, bytesLeft := (n : Int), inBuffer := [],
                          trailerBuffer := [], unusedData := [],
                          finishedReading := false } u) := by
      rw [htake]
      unfold lpAccept initLPD
      simp only [List.nil_append]
      have hnlt : hasNL (L ++ '\n' :: u) = true := by
        rw [hasNL_append]
        simp [hasNL]
      rw [if_pos hnlt, takeLine_append_of_not_hasNL _ hLnl,
        dropLine_append_of_not_hasNL _ hLnl, takeLine_cons_nl, dropLine_cons_nl]
      have hdl : (L ++ ['\n']).dropLast = L := by
        simp
      rw [hdl, hn, parseDigits_natRepr]
    have hwlen : w.length = n + 5 + excess.length := by
      simp [hw, doneMarker, hn]
      omega
    have hulen : u.length = min j w.length := by simp [hu]
    rw [hstep, lpBodyStep_entry]
    by_cases hlt : u.length < n
    · rw [if_pos hlt]
      refine ⟨_, rfl, ?_, ?_, ?_⟩
      · simp only [lpNextReadSize]
        omega
      · simp only [Bool.false_eq_true, false_iff]
        rw [hplen]
        omega
      · intro habs
        simp at habs
    · by_cases heq : u.length = n
      · rw [if_neg hlt, if_pos heq]
        refine ⟨_, rfl, ?_, ?_, ?_⟩
        · simp [lpNextReadSize]
        · simp only [Bool.false_eq_true, false_iff]
          rw [hplen]
          omega
        · intro habs
          simp at habs
      · -- body complete, some trailer bytes in this call
        have hgt : n < u.length := by omega
        rw [if_neg hlt, if_neg heq]
        have hjn : n ≤ j := by omega
        have hus : u = s ++ (doneMarker ++ excess).take (j - n) := by
          rw [hu, hw, List.append_assoc, List.take_append_eq_append_take,
            List.take_of_length_le (by omega), ← hn]
        have hutake : u.take n = s := by
          rw [hus, List.take_append_eq_append_take, List.take_of_length_le (by omega),
            Nat.sub_eq_zero_of_le (by omega), List.take_zero, List.append_nil]
        have hudrop : u.drop n = (doneMarker ++ excess).take (j - n) := by
          rw [hus, List.drop_append_eq_append_drop,
            List.drop_of_length_le (by omega), Nat.sub_eq_zero_of_le (by omega),
            List.drop_zero, List.nil_append]
        rw [hutake, hudrop]
        by_cases hterm : u.length < n + 5
        · -- only part of the terminator has arrived
          have huj : u.length = j := by omega
          have hjlt : j - n < 5 := by omega
          have hsub : j - n - doneMarker.length = 0 := by omega
          have hdrop : (doneMarker ++ excess).take (j - n) = doneMarker.take (j - n) := by
            rw [List.take_append_eq_append_take, hsub, List.take_zero, List.append_nil]
          rw [hdrop]
          unfold lpTrailerCheck
          have hsw : ¬ (startsWith (doneMarker.take (j - n)) doneMarker = true) := by
            simp [startsWith_take_doneMarker_eq_false hjlt]
          rw [if_neg hsw]
          refine ⟨_, rfl, ?_, ?_, ?_⟩
          · simp only [lpNextReadSize, List.length_take, hdml]
            omega
          · simp only [Bool.false_eq_true, false_iff]
            rw [hplen]
            omega
          · intro habs
            simp at habs
        · -- terminator complete: finished, excess preserved
          have hj5 : n + 5 ≤ j := by omega
          have h5 : doneMarker.length ≤ j - n := by omega
          have hdrop : (doneMarker ++ excess).take (j - n) =
              doneMarker ++ excess.take (j - n - 5) := by
            rw [List.take_append_eq_append_take, List.take_of_length_le h5, hdml]
          rw [hdrop]
          unfold lpTrailerCheck
          rw [if_pos (startsWith_append doneMarker (excess.take (j - n - 5)))]
          refine ⟨_, rfl, ?_, ?_, ?_⟩
          · simp [lpNextReadSize]
          · simp only [true_iff]
            rw [hplen]
            omega
          · intro _
            simp [lpNextReadSize]

/-- **C1, counterexample.**  On the complete, valid v1 body
`"1\nadone\nunused"` — the very input of the cited unit test
`test_accept_bytes_all_at_once_with_excess` — the decoder is fully done
(declared content byte and the `"done\n"` terminator consumed,
`finished_reading` true, `"unused"` preserved as excess), yet
`next_read_size()` returns 1, not 0.  The claim that `next_read_size()`
returns 0 exactly when the decoder is fully done is therefore false. -/
theorem lpC1_counterexample :
    ∃ d, lpAccept initLPD ("1\nadone\nunused".toList) = .ok d ∧
      d.finishedReading = true ∧ d.unusedData = "unused".toList ∧
      lpNextReadSize d = 1 ∧ ¬ lpNextReadSize d = 0 := by
  refine ⟨_, rfl, ?_, ?_, ?_, ?_⟩ <;> decide

/-- **C1, amended.**  For the length-prefixed body decoder (protocol v1),
`next_read_size()` is a positive hint throughout and never returns 0:
handing any prefix of a well-formed body (decimal length line, declared
content, `"done\n"` terminator, arbitrary excess appended) to a fresh
decoder, the hint is at least 1, the decoder is fully done exactly when the
declared content and the terminator have been consumed, and once fully done
the hint is exactly 1 (not 0). -/
theorem lpNextReadSize_pos_and_one_when_done (s excess : Bytes) (k : Nat) :
    ∃ d, lpAccept initLPD ((lpPayload s ++ excess).take k) = .ok d ∧
      1 ≤ lpNextReadSize d ∧
      (d.finishedReading = true ↔ (lpPayload s).length ≤ k) ∧
      (d.finishedReading = true → lpNextReadSize d = 1) :=
  lpAccept_take_payload s excess k

/-! ## Protocol version detection on server stream mediums

Modelled from the spec: the implementations (`SmartServerPipeStreamMedium`
and `SmartServerSocketStreamMedium._build_protocol` in
`bzrlib/smart/medium.py`) are not part of this source tree; only their unit
tests are.  Per §4.3/§8 of the spec, the medium accumulates reads until a
full line is available (the reads may split the marker at arbitrary,
non-newline positions), and then: input starting with the v2 marker literal
selects version two, input starting with the v3 marker literal selects
version three, and anything else — including empty input — defaults to
version one.  Both pipe-like and socket mediums follow this loop; they
differ only in read granularity, which the arbitrary chunking below
covers. -/

/-- The fixed v2 request marker literal, `"bzr request 2\n"`. -/
def requestVersionTwo : Bytes := "bzr request 2\n".toList

/-- The fixed v3 marker literal, `"bzr message 3 (bzr 1.3)\n"`. -/
def messageVersionThree : Bytes := "bzr message 3 (bzr 1.3)\n".toList

inductive ProtocolVersion where
  | one
  | two
  | three
deriving DecidableEq, Repr

/-- Version selection on the accumulated input: v2 marker prefix selects
two, v3 marker prefix selects three, anything else (empty input included)
defaults to one. -/
def detectVersion (s : Bytes) : ProtocolVersion :=
  if startsWith s requestVersionTwo then .two
  else if startsWith s messageVersionThree then .three
  else .one

/-- `_get_line` of a server stream medium: read chunk after chunk from the
transport, accumulating into a buffer, until the buffer holds a newline or
the stream is exhausted; the first line is then split off, the rest of the
buffer is pushed back.  Returns (line, push-back, unread chunks). -/
def getLineFrom : Bytes → List Bytes → Bytes × Bytes × List Bytes
  | buf, [] => (takeLine buf, dropLine buf, [])
  | buf, c :: cs =>
    if hasNL buf then (takeLine buf, dropLine buf, c :: cs)
    else getLineFrom (buf ++ c) cs

/-- `_build_protocol`: read the first line and select the protocol version
from it. -/
def buildProtocolVersion (reads : List Bytes) : ProtocolVersion :=
  detectVersion (getLineFrom [] reads).1

theorem getLineFrom_fst (cs : List Bytes) (buf : Bytes) :
    (getLineFrom buf cs).1 = takeLine (buf ++ cs.join) := by
  induction cs generalizing buf with
  | nil => simp [getLineFrom]
  | cons c cs ih =>
    by_cases h : hasNL buf
    · rw [getLineFrom, if_pos h, takeLine_append_of_hasNL _ h]
    · rw [getLineFrom, if_neg h, ih (buf ++ c)]
      simp

theorem startsWith_takeLine {t p : Bytes} (hp : hasNL p = false) :
    startsWith (takeLine t) (p ++ ['\n']) = startsWith t (p ++ ['\n']) := by
  cases hsw : startsWith t (p ++ ['\n']) with
  | true =>
    obtain ⟨rest, hrest⟩ := (startsWith_iff_exists t (p ++ ['\n'])).1 hsw
    have : takeLine t = p ++ ['\n'] := by
      rw [hrest, List.append_assoc, takeLine_append_of_not_hasNL _ hp,
        List.singleton_append, takeLine_cons_nl]
    rw [this]
    have := startsWith_append (p ++ ['\n']) []
    simpa using this
  | false =>
    cases hsw2 : startsWith (takeLine t) (p ++ ['\n']) with
    | false => rfl
    | true =>
      exfalso
      obtain ⟨rest, hrest⟩ := (startsWith_iff_exists _ _).1 hsw2
      have ht : t = (p ++ ['\n']) ++ (rest ++ dropLine t) := by
        conv_lhs => rw [← takeLine_append_dropLine t]
        rw [hrest]
        simp
      have : startsWith t (p ++ ['\n']) = true := by
        rw [ht]
        exact startsWith_append _ _
      rw [this] at hsw
      simp at hsw

theorem detectVersion_takeLine (t : Bytes) :
    detectVersion (takeLine t) = detectVersion t := by
  have h2 : requestVersionTwo = "bzr request 2".toList ++ ['\n'] := by decide
  have h3 : messageVersionThree = "bzr message 3 (bzr 1.3)".toList ++ ['\n'] := by decide
  have hp2 : hasNL ("bzr request 2".toList) = false := by decide
  have hp3 : hasNL ("bzr message 3 (bzr 1.3)".toList) = false := by decide
  unfold detectVersion
  rw [h2, h3, startsWith_takeLine hp2, startsWith_takeLine hp3]

/-- **C2.**  For every server stream medium (pipe-like or socket alike: the
chunk list stands for the successive reads the medium performs, split at
arbitrary — in particular non-newline — positions), building the protocol
for an inbound request selects exactly the version determined by the
accumulated input: version two when it starts with the v2 marker literal
`"bzr request 2\n"`, version three when it starts with the v3 marker
literal, and version one otherwise — in particular on empty input and on
`"abc\n"`. -/
theorem buildProtocolVersion_correct (reads : List Bytes) :
    buildProtocolVersion reads = detectVersion reads.flatten ∧
    (startsWith reads.flatten requestVersionTwo = true →
      buildProtocolVersion reads = .two) ∧
    (startsWith reads.flatten messageVersionThree = true →
      buildProtocolVersion reads = .three) ∧
    (startsWith reads.flatten requestVersionTwo = false →
      startsWith reads.flatten messageVersionThree = false →
      buildProtocolVersion reads = .one) ∧
    detectVersion [] = .one ∧ detectVersion ("abc\n".toList) = .one := by
  have hmain : buildProtocolVersion reads = detectVersion reads.flatten := by
    unfold buildProtocolVersion
    rw [getLineFrom_fst]
    simpa using detectVersion_takeLine reads.flatten
  refine ⟨hmain, ?_, ?_, ?_, by decide, by decide⟩
  · intro h
    rw [hmain]
    unfold detectVersion
    rw [if_pos h]
  · intro h
    rw [hmain]
    unfold detectVersion
    have h2 : startsWith reads.flatten requestVersionTwo = false := by
      cases hsw : startsWith reads.flatten requestVersionTwo with
      | false => rfl
      | true =>
        exfalso
        obtain ⟨r1, hr1⟩ := (startsWith_iff_exists _ _).1 h
        obtain ⟨r2, hr2⟩ := (startsWith_iff_exists _ _).1 hsw
        rw [hr1] at hr2
        have : messageVersionThree.take 5 = requestVersionTwo.take 5 := by
          have := congrArg (List.take 5) hr2
          rw [List.take_append_eq_append_take, List.take_append_eq_append_take] at this
          simp only [messageVersionThree, requestVersionTwo] at this
          exact this
        revert this
        decide
    rw [if_neg (by simp [h2]), if_pos h]
  · intro h2 h3
    rw [hmain]
    unfold detectVersion
    rw [if_neg (by simp [h2]), if_neg (by simp [h3])]

/-- **C2, witness**: the four concrete detections of the cited tests —
empty input and `"abc\n"` select v1, the v2 marker selects v2, the v3 marker
(split mid-marker at a non-newline position, as in
`test_socket_stream_incomplete_request`) selects v3. -/
theorem buildProtocolVersion_correct_witness :
    buildProtocolVersion [] = .one ∧
    buildProtocolVersion ["abc\n".toList] = .one ∧
    buildProtocolVersion [requestVersionTwo ++ "hel".toList, "lo\n".toList] = .two ∧
    buildProtocolVersion ["bzr mess".toList, "age 3 (bzr 1.3)\nx".toList] = .three := by
  refine ⟨?_, ?_, ?_, ?_⟩
  · exact (buildProtocolVersion_correct []).1.trans (by decide)
  · exact (buildProtocolVersion_correct _).1.trans (by decide)
  · exact (buildProtocolVersion_correct _).2.1 (by decide)
  · exact (buildProtocolVersion_correct _).2.2.1 (by decide)

/-! ## Version-one server protocol and the pipe-like serve loop

Modelled from the spec: `SmartServerRequestProtocolOne` and the pipe-like
medium's `_serve_one_request` (`bzrlib/smart/protocol.py` /
`bzrlib/smart/medium.py`) are not part of this source tree; only their unit
tests are.  Per §4.3: the protocol accumulates bytes in `in_buffer` until
the request line (terminated by a newline) is complete, dispatches it —
encoding the response through its write function — and from then on
`next_read_size()` is 0 and every further byte is preserved verbatim in
`excess_buffer` for the next protocol unit.  The model covers body-less
requests, the shape of the pipelined-request property and of the cited
tests.  The pipe-like medium reads exactly `next_read_size()` bytes at a
time from its input and feeds them to the protocol, so it never consumes
bytes belonging to a later request. -/

structure ServerProtocolOne where
  inBuffer : Bytes
  excessBuffer : Bytes
  hasDispatched : Bool
  /-- Bytes handed to the medium's write function (the encoded response). -/
  outBytes : Bytes
deriving DecidableEq, Repr

def initSPO : ServerProtocolOne :=
  { inBuffer := [], excessBuffer := [], hasDispatched := false, outBytes := [] }

/-- The request dispatcher for body-less commands, as exercised by the cited
tests: `hello` answers `ok\x013\n`, any other line an error response line. -/
def respondV1 (line : Bytes) : Bytes :=
  if line = "hello\n".toList then "ok\x013\n".toList
  else "error\x01Generic bzr smart protocol error: bad request\n".toList

/-- `accept_bytes` of the v1 server protocol (body-less requests): buffer
until the command line is complete, dispatch it once, and afterwards append
every byte to `excess_buffer`. -/
def spoAccept (p : ServerProtocolOne) (bs : Bytes) : ServerProtocolOne :=
  if p.hasDispatched then { p with excessBuffer := p.excessBuffer ++ bs }
  else
    let buf := p.inBuffer ++ bs
    if hasNL buf then
      { inBuffer := [], excessBuffer := p.excessBuffer ++ dropLine buf,
        hasDispatched := true, outBytes := p.outBytes ++ respondV1 (takeLine buf) }
    else { p with inBuffer := buf }

/-- `next_read_size()`: 0 once the request has been dispatched and the
response sent, 1 before. -/
def spoNextReadSize (p : ServerProtocolOne) : Nat :=
  if p.hasDispatched then 0 else 1

/-- The pipe-like medium's `_serve_one_request` loop: read exactly
`next_read_size()` bytes from the pipe and feed them to the protocol, until
the hint is 0 (request fully served) or the pipe is exhausted (medium
finished).  Returns the final protocol state, the bytes still unread in the
pipe, and whether end-of-file was hit. -/
def servePipeRequest (p : ServerProtocolOne) (input : Bytes) :
    ServerProtocolOne × Bytes × Bool :=
  if spoNextReadSize p = 0 then (p, input, false)
  else
    match input with
    | [] => (p, [], true)
    | c :: rest => servePipeRequest (spoAccept p [c]) rest

theorem servePipeRequest_of_dispatched {p : ServerProtocolOne}
    (hp : p.hasDispatched = true) (input : Bytes) :
    servePipeRequest p input = (p, input, false) := by
  rw [servePipeRequest.eq_def]
  rw [if_pos (by simp [spoNextReadSize, hp])]

theorem servePipeRequest_step {p : ServerProtocolOne}
    (hp : p.hasDispatched = false) (c : Char) (rest : Bytes) :
    servePipeRequest p (c :: rest) = servePipeRequest (spoAccept p [c]) rest := by
  rw [servePipeRequest.eq_def]
  rw [if_neg (by simp [spoNextReadSize, hp])]

theorem spoAccept_of_dispatched {p : ServerProtocolOne}
    (hp : p.hasDispatched = true) (bs : Bytes) :
    spoAccept p bs = { p with excessBuffer := p.excessBuffer ++ bs } := by
  rw [spoAccept, if_pos hp]

theorem spoAccept_undispatched_no_newline {p : ServerProtocolOne}
    (hp : p.hasDispatched = false) {bs : Bytes}
    (h : hasNL (p.inBuffer ++ bs) = false) :
    spoAccept p bs = { p with inBuffer := p.inBuffer ++ bs } := by
  rw [spoAccept, if_neg (by simp [hp])]
  simp only [h]
  rfl

theorem spoAccept_undispatched_newline {p : ServerProtocolOne}
    (hp : p.hasDispatched = false) {bs : Bytes}
    (h : hasNL (p.inBuffer ++ bs) = true) :
    spoAccept p bs =
      { inBuffer := [],
        excessBuffer := p.excessBuffer ++ dropLine (p.inBuffer ++ bs),
        hasDispatched := true,
        outBytes := p.outBytes ++ respondV1 (takeLine (p.inBuffer ++ bs)) } := by
  rw [spoAccept, if_neg (by simp [hp])]
  simp only [h]
  rfl

/-- Serving one body-less v1 request through the pipe-like medium consumes
exactly the request line and nothing more: the protocol dispatches with an
empty excess buffer, and the bytes after the newline stay unread in the
pipe. -/
theorem servePipeRequest_line {c : Bytes} (hc : hasNL c = false) (buf : Bytes)
    (hbuf : hasNL buf = false) (rest : Bytes) :
    servePipeRequest { inBuffer := buf, excessBuffer := [], hasDispatched := false,
                       outBytes := [] } (c ++ '\n' :: rest) =
    ({ inBuffer := [], excessBuffer := [], hasDispatched := true,
       outBytes := respondV1 (buf ++ (c ++ ['\n'])) }, rest, false) := by
  induction c generalizing buf with
  | nil =>
    rw [List.nil_append, servePipeRequest_step rfl]
    have hnl : hasNL (buf ++ ['\n']) = true := by
      rw [hasNL_append]
      simp [hasNL]
    rw [spoAccept_undispatched_newline rfl (by simpa using hnl)]
    simp only []
    have hdrop : dropLine (buf ++ ['\n']) = [] := by
      rw [dropLine_append_of_not_hasNL _ hbuf, dropLine_cons_nl]
    have htke : takeLine (buf ++ ['\n']) = buf ++ ['\n'] := by
      rw [takeLine_append_of_not_hasNL _ hbuf, takeLine_cons_nl]
    rw [servePipeRequest_of_dispatched rfl]
    simp [hdrop, htke]
  | cons ch c ih =>
    have hch : ¬(ch = '\n') := by
      intro hch
      simp [hasNL, hch] at hc
    have hc2 : hasNL c = false := by
      simpa [hasNL, hch] using hc
    rw [List.cons_append, servePipeRequest_step rfl]
    have hnlf : hasNL (buf ++ [ch]) = false := by
      rw [hasNL_append, hbuf]
      simp [hasNL, hch]
    rw [spoAccept_undispatched_no_newline rfl (by simpa using hnlf)]
    have := ih hc2 (buf ++ [ch]) hnlf
    simp only [] at this ⊢
    rw [this]
    simp

/-- **C4.**  Excess-byte preservation across pipelined v1 requests: for two
concatenated body-less v1 requests, (i) after the pipe-like medium has
served the first, `next_read_size()` is 0, the served protocol's excess
buffer is empty, and the second request's bytes are still unread; (ii)
serving a fresh protocol unit on the same medium processes the second
request exactly as one received separately, consuming it fully with an
empty excess buffer; (iii) at protocol level, when both requests arrive in
one `accept_bytes` call the second request's bytes are preserved verbatim in
the excess buffer, and any further `accept_bytes` call appends there. -/
theorem v1_pipelined_excess_preservation (c1 c2 : Bytes)
    (h1 : hasNL c1 = false) (h2 : hasNL c2 = false) :
    servePipeRequest initSPO ((c1 ++ ['\n']) ++ (c2 ++ ['\n'])) =
      ({ inBuffer := [], excessBuffer := [], hasDispatched := true,
         outBytes := respondV1 (c1 ++ ['\n']) }, c2 ++ ['\n'], false) ∧
    spoNextReadSize (servePipeRequest initSPO ((c1 ++ ['\n']) ++ (c2 ++ ['\n']))).1 = 0 ∧
    servePipeRequest initSPO
        (servePipeRequest initSPO ((c1 ++ ['\n']) ++ (c2 ++ ['\n']))).2.1 =
      servePipeRequest initSPO (c2 ++ ['\n']) ∧
    servePipeRequest initSPO (c2 ++ ['\n']) =
      ({ inBuffer := [], excessBuffer := [], hasDispatched := true,
         outBytes := respondV1 (c2 ++ ['\n']) }, [], false) ∧
    (spoAccept initSPO ((c1 ++ ['\n']) ++ (c2 ++ ['\n']))).excessBuffer = c2 ++ ['\n'] ∧
    (∀ extra, (spoAccept (spoAccept initSPO ((c1 ++ ['\n']) ++ (c2 ++ ['\n']))) extra).excessBuffer
        = (c2 ++ ['\n']) ++ extra) := by
  have hline1 : servePipeRequest initSPO ((c1 ++ ['\n']) ++ (c2 ++ ['\n'])) =
      ({ inBuffer := [], excessBuffer := [], hasDispatched := true,
         outBytes := respondV1 (c1 ++ ['\n']) }, c2 ++ ['\n'], false) := by
    have := servePipeRequest_line h1 [] rfl (c2 ++ ['\n'])
    simpa [initSPO] using this
  have hline2 : servePipeRequest initSPO (c2 ++ ['\n']) =
      ({ inBuffer := [], excessBuffer := [], hasDispatched := true,
         outBytes := respondV1 (c2 ++ ['\n']) }, [], false) := by
    have := servePipeRequest_line h2 [] rfl ([] : Bytes)
    simpa [initSPO] using this
  have haccept : spoAccept initSPO ((c1 ++ ['\n']) ++ (c2 ++ ['\n'])) =
      { inBuffer := [], excessBuffer := c2 ++ ['\n'], hasDispatched := true,
        outBytes := respondV1 (c1 ++ ['\n']) } := by
    have hnl : hasNL (initSPO.inBuffer ++ ((c1 ++ ['\n']) ++ (c2 ++ ['\n']))) = true := by
      simp only [initSPO, List.nil_append]
      rw [List.append_assoc, hasNL_append, hasNL_append]
      simp [hasNL]
    rw [spoAccept_undispatched_newline rfl hnl]
    simp only [initSPO, List.nil_append]
    rw [List.append_assoc, List.singleton_append, dropLine_append_of_not_hasNL _ h1,
      dropLine_cons_nl, takeLine_append_of_not_hasNL _ h1, takeLine_cons_nl]
  refine ⟨hline1, ?_, ?_, hline2, ?_, ?_⟩
  · rw [hline1]
    rfl
  · rw [hline1]
  · rw [haccept]
  · intro extra
    rw [haccept, spoAccept_of_dispatched rfl]

/-- **C4, witness**: the scenario of the cited tests, two concatenated
`"command\n"` requests (`test_pipe_like_stream_with_two_requests`) and
`"hello\nhello\n"` (`test_accept_excess_bytes_are_preserved`). -/
theorem v1_pipelined_excess_preservation_witness :
    (servePipeRequest initSPO ("command\ncommand\n".toList)).2.1 = "command\n".toList ∧
    (spoAccept initSPO ("hello\nhello\n".toList)).excessBuffer = "hello\n".toList := by
  constructor
  · have h := (v1_pipelined_excess_preservation ("command".toList) ("command".toList)
      (by decide) (by decide)).1
    rw [show (("command".toList ++ ['\n']) ++ ("command".toList ++ ['\n']) : Bytes)
        = "command\ncommand\n".toList from by decide] at h
    rw [h]
    decide
  · have h := (v1_pipelined_excess_preservation ("hello".toList) ("hello".toList)
      (by decide) (by decide)).2.2.2.2.1
    rw [show (("hello".toList ++ ['\n']) ++ ("hello".toList ++ ['\n']) : Bytes)
        = "hello\nhello\n".toList from by decide] at h
    rw [h]
    decide

/-! ## Client stream medium request: write-then-read phase state machine

Modelled from the spec: `SmartClientStreamMediumRequest` and the client
stream mediums (`bzrlib/smart/medium.py`) are not part of this source tree;
only their unit tests are.  Per §3/§4.4/§7: a medium request moves through
Writing → (finished_writing) → Reading → (finished_reading) → Done, and each
out-of-phase call is a programming-contract violation that fails fast with
its dedicated error and changes nothing: `accept_bytes` outside the Writing
phase raises WritingCompleted, `read_bytes`/`finished_reading` in the
Writing phase raise WritingNotComplete, `read_bytes` after
`finished_reading` raises ReadingCompleted, and constructing a second
request on a medium whose current request is still pending raises
TooManyConcurrentRequests.  Errors are modelled by `Except`: an erroring
call returns only the error, so no state change can happen on failure. -/

inductive RequestPhase where
  | writing
  | reading
  | done
deriving DecidableEq, Repr

inductive MediumRequestError where
  | writingCompleted
  | writingNotComplete
  | readingCompleted
  | tooManyConcurrentRequests
deriving DecidableEq, Repr

structure ClientStreamMedium where
  /-- Whether a request is currently pending (`_current_request is not None`). -/
  hasCurrentRequest : Bool
  /-- Bytes written out through the medium. -/
  outBytes : Bytes
  /-- Bytes available to be read from the medium. -/
  inBytes : Bytes
deriving DecidableEq, Repr

structure ClientStreamMediumRequest where
  phase : RequestPhase
deriving DecidableEq, Repr

/-- Constructing a `SmartClientStreamMediumRequest` on a medium: fails when a
request is already pending, otherwise registers itself as the medium's
current request and starts in the Writing phase. -/
def mkMediumRequest (m : ClientStreamMedium) :
    Except MediumRequestError (ClientStreamMedium × ClientStreamMediumRequest) :=
  if m.hasCurrentRequest then .error .tooManyConcurrentRequests
  else .ok ({ m with hasCurrentRequest := true }, { phase := .writing })

/-- `accept_bytes`: only legal in the Writing phase. -/
def requestAcceptBytes (r : ClientStreamMediumRequest) (m : ClientStreamMedium)
    (bs : Bytes) :
    Except MediumRequestError (ClientStreamMediumRequest × ClientStreamMedium) :=
  if r.phase = .writing then .ok (r, { m with outBytes := m.outBytes ++ bs })
  else .error .writingCompleted

/-- `finished_writing`: moves Writing → Reading; out of phase it fails with
WritingCompleted. -/
def requestFinishedWriting (r : ClientStreamMediumRequest) :
    Except MediumRequestError ClientStreamMediumRequest :=
  if r.phase = .writing then .ok { phase := .reading }
  else .error .writingCompleted

/-- `read_bytes`: illegal before `finished_writing` (WritingNotComplete) and
after `finished_reading` (ReadingCompleted). -/
def requestReadBytes (r : ClientStreamMediumRequest) (m : ClientStreamMedium)
    (count : Nat) :
    Except MediumRequestError (Bytes × ClientStreamMedium) :=
  match r.phase with
  | .writing => .error .writingNotComplete
  | .done => .error .readingCompleted
  | .reading => .ok (m.inBytes.take count, { m with inBytes := m.inBytes.drop count })

/-- `finished_reading`: moves Reading → Done and clears the medium's current
request; outside the Reading phase it fails with WritingNotComplete. -/
def requestFinishedReading (r : ClientStreamMediumRequest) (m : ClientStreamMedium) :
    Except MediumRequestError (ClientStreamMediumRequest × ClientStreamMedium) :=
  if r.phase = .reading then .ok ({ phase := .done }, { m with hasCurrentRequest := false })
  else .error .writingNotComplete

/-- **C5.**  Every out-of-phase call on a client stream medium request fails
fast with its dedicated phase error, and nothing else happens (an erroring
call returns only the error): `accept_bytes` outside the Writing phase —
hence after `finished_writing` — fails with WritingCompleted; `read_bytes`
and `finished_reading` before `finished_writing` fail with
WritingNotComplete; `read_bytes` after `finished_reading` fails with
ReadingCompleted; constructing a second request on a medium whose current
request is still pending fails with TooManyConcurrentRequests.  The phase
moves Writing → Reading → Done only through `finished_writing` and
`finished_reading`. -/
theorem clientRequest_phase_violations :
    (∀ (m : ClientStreamMedium) (r : ClientStreamMediumRequest) (bs : Bytes),
      r.phase ≠ .writing →
      requestAcceptBytes r m bs = .error .writingCompleted) ∧
    (∀ (m : ClientStreamMedium) (r : ClientStreamMediumRequest) (n : Nat),
      r.phase = .writing →
      requestReadBytes r m n = .error .writingNotComplete) ∧
    (∀ (m : ClientStreamMedium) (r : ClientStreamMediumRequest),
      r.phase = .writing →
      requestFinishedReading r m = .error .writingNotComplete) ∧
    (∀ (m : ClientStreamMedium) (r : ClientStreamMediumRequest) (n : Nat),
      r.phase = .done →
      requestReadBytes r m n = .error .readingCompleted) ∧
    (∀ m : ClientStreamMedium, m.hasCurrentRequest = true →
      mkMediumRequest m = .error .tooManyConcurrentRequests) ∧
    (∀ r : ClientStreamMediumRequest, r.phase = .writing →
      requestFinishedWriting r = .ok { phase := .reading }) ∧
    (∀ (m : ClientStreamMedium) (r : ClientStreamMediumRequest), r.phase = .reading →
      requestFinishedReading r m =
        .ok ({ phase := .done }, { m with hasCurrentRequest := false })) := by
  refine ⟨?_, ?_, ?_, ?_, ?_, ?_, ?_⟩
  · intro m r bs h
    rw [requestAcceptBytes, if_neg h]
  · intro m r n h
    rw [requestReadBytes, h]
  · intro m r h
    rw [requestFinishedReading, if_neg (by rw [h]; intro hx; cases hx)]
  · intro m r n h
    rw [requestReadBytes, h]
  · intro m h
    rw [mkMediumRequest, if_pos h]
  · intro r h
    rw [requestFinishedWriting, if_pos h]
  · intro m r h
    rw [requestFinishedReading, if_pos h]

/-- **C5, witness**: the concrete scenarios of the cited tests — a fresh
request driven through its lifecycle, each out-of-phase call erroring with
its dedicated phase error, and a second concurrent request refused. -/
theorem clientRequest_phase_violations_witness :
    requestAcceptBytes ⟨.reading⟩ ⟨true, [], []⟩ [] = .error .writingCompleted ∧
    requestReadBytes ⟨.writing⟩ ⟨true, [], []⟩ 0 = .error .writingNotComplete ∧
    requestFinishedReading ⟨.writing⟩ ⟨true, [], []⟩ = .error .writingNotComplete ∧
    requestReadBytes ⟨.done⟩ ⟨false, [], []⟩ 0 = .error .readingCompleted ∧
    mkMediumRequest ⟨true, [], []⟩ = .error .tooManyConcurrentRequests := by
  refine ⟨?_, ?_, ?_, ?_, ?_⟩
  · exact clientRequest_phase_violations.1 _ _ [] (by decide)
  · exact clientRequest_phase_violations.2.1 _ _ 0 (by decide)
  · exact clientRequest_phase_violations.2.2.1 _ _ (by decide)
  · exact clientRequest_phase_violations.2.2.2.1 _ _ 0 (by decide)
  · exact clientRequest_phase_violations.2.2.2.2.1 _ (by decide)

/-! ## Three-way per-entry merge classification

Modelled from the spec: the merge engine (`bzrlib/merge.py`) is not part of
this source tree; only its unit tests are.  Per §4.6, for each file-id in
the union of base/this/other the engine classifies the per-entry change:
identical state on both non-base sides (in particular both deleting the
entry, or both making the same change) is taken once and is never a
conflict (spurious-conflict avoidance, rules 1 and 3); a change on a single
side is taken (rule 2); and only genuinely diverging changes synthesize
conflict records (rule 4): diverging name/parent is a path conflict,
diverging content/executability a text conflict, a delete against a
modification or diverging kinds a contents conflict.  Conflicts are
accumulated as data; the merge always completes. -/

inductive EntryKind where
  | file
  | dir
  | symlink
deriving DecidableEq, Repr

/-- The per-side state of one inventory entry: name, parent directory id,
kind, content hash and executable bit (spec §3, MergeEntry). -/
structure TreeEntry where
  name : Bytes
  parentId : Bytes
  kind : EntryKind
  content : Bytes
  executable : Bool
deriving DecidableEq, Repr

inductive MergeConflict where
  | textConflict (fileId : Bytes)
  | contentsConflict (fileId : Bytes)
  | pathConflict (fileId : Bytes)
deriving DecidableEq, Repr

inductive AttrMerge (α : Type) where
  | take (a : α)
  | conflict
deriving DecidableEq

/-- Scalar three-way merge of one attribute (spec §4.6 rules 1–4): agreeing
sides win, a single changed side wins, diverging changes conflict. -/
def merge3Attr {α : Type} [DecidableEq α] (b t o : α) : AttrMerge α :=
  if t = o then .take t
  else if t = b then .take o
  else if o = b then .take t
  else .conflict

def attrOr {α : Type} (r : AttrMerge α) (dflt : α) : α :=
  match r with
  | .take a => a
  | .conflict => dflt

/-- Per-entry three-way merge: the merged entry state (absent allowed) plus
the conflict records synthesized for this file-id. -/
def mergeEntry (fileId : Bytes) (base this other : Option TreeEntry) :
    Option TreeEntry × List MergeConflict :=
  if this = other then (this, [])
  else if this = base then (other, [])
  else if other = base then (this, [])
  else
    match this, other with
    | none, some oe => (some oe, [.contentsConflict fileId])
    | some te, none => (some te, [.contentsConflict fileId])
    | none, none => (none, [])
    | some te, some oe =>
      match base with
      | none => (some te, [.contentsConflict fileId])
      | some be =>
        let nameRes := merge3Attr be.name te.name oe.name
        let parentRes := merge3Attr be.parentId te.parentId oe.parentId
        let kindRes := merge3Attr be.kind te.kind oe.kind
        let contentRes := merge3Attr be.content te.content oe.content
        let execRes := merge3Attr be.executable te.executable oe.executable
        (some { name := attrOr nameRes te.name,
                parentId := attrOr parentRes te.parentId,
                kind := attrOr kindRes te.kind,
                content := attrOr contentRes te.content,
                executable := attrOr execRes te.executable },
         (if nameRes = .conflict ∨ parentRes = .conflict
            then [.pathConflict fileId] else []) ++
         (if kindRes = .conflict then [.contentsConflict fileId] else []) ++
         (if contentRes = .conflict ∨ execRes = .conflict
            then [.textConflict fileId] else []))

/-- Whole-tree merge: classify every file-id, accumulating merged entries
and conflicts; the merge always completes. -/
def mergeTree (ids : List Bytes) (base this other : Bytes → Option TreeEntry) :
    List (Bytes × Option TreeEntry) × List MergeConflict :=
  match ids with
  | [] => ([], [])
  | i :: is =>
    let step := mergeEntry i (base i) (this i) (other i)
    let rest := mergeTree is base this other
    ((i, step.1) :: rest.1, step.2 ++ rest.2)

/-- **C7.**  Merge spurious-conflict avoidance: whenever the this side and
the other side are in the identical per-entry state — in particular when
both delete the same file, whatever the base held — the merge completes
taking that shared state once, and the conflict list is empty. -/
theorem merge_identical_changes_no_conflicts (ids : List Bytes)
    (base this other : Bytes → Option TreeEntry)
    (h : ∀ i ∈ ids, this i = other i) :
    mergeTree ids base this other = (ids.map (fun i => (i, this i)), []) := by
  induction ids with
  | nil => rfl
  | cons i is ih =>
    have hi : this i = other i := h i (List.mem_cons_self i is)
    have hrest := ih (fun x hx => h x (List.mem_cons_of_mem i hx))
    rw [mergeTree, hrest]
    rw [mergeEntry.eq_def, if_pos hi]
    simp

/-- **C7, witness**: the spec's concrete scenario — base holds file X, this
deletes it, other deletes it identically — merges to the deletion with zero
conflicts. -/
theorem merge_identical_changes_no_conflicts_witness :
    mergeTree ["1".toList]
      (fun _ => some { name := "name1".toList, parentId := "TREE_ROOT".toList,
                       kind := .file, content := "text1".toList, executable := false })
      (fun _ => none) (fun _ => none) = ([("1".toList, none)], []) := by
  have h := merge_identical_changes_no_conflicts ["1".toList]
    (fun _ => some { name := "name1".toList, parentId := "TREE_ROOT".toList,
                     kind := .file, content := "text1".toList, executable := false })
    (fun _ => none) (fun _ => none) (fun i _ => rfl)
  simpa using h

/-! ## Tree transform: applying a rename set without collision hazards

Modelled from the spec: the tree transform engine (`bzrlib/transform.py`) is
not part of this source tree; only its unit tests are.  Per §4.5, queued
rename operations are applied so that the final state is reached regardless
of slot-occupancy hazards: every rename source is first moved to a
per-transform temporary (limbo) slot, then each limbo slot is moved into its
final place, and the transform finishes only once the limbo area is empty
again.  Each elementary move checks the filesystem invariants (source must
exist, target slot must be free) and fails rather than overwrite, so a
successful application certifies that no transient name collision
occurred. -/

/-- A flat working tree: an association list from file name to content. -/
abbrev FsTree := List (Bytes × Bytes)

def fsLookup (t : FsTree) (n : Bytes) : Option Bytes :=
  match t with
  | [] => none
  | (m, c) :: rest => if m = n then some c else fsLookup rest n

def fsRemove (t : FsTree) (n : Bytes) : FsTree :=
  match t with
  | [] => []
  | (m, c) :: rest => if m = n then fsRemove rest n else (m, c) :: fsRemove rest n

inductive TransformError where
  | sourceMissing (name : Bytes)
  | targetExists (name : Bytes)
  | limboMissing (idx : Nat)
  | limboNotEmpty
deriving DecidableEq, Repr

structure TransformState where
  tree : FsTree
  limbo : List (Nat × Bytes)
deriving DecidableEq, Repr

def limboLookup (l : List (Nat × Bytes)) (i : Nat) : Option Bytes :=
  match l with
  | [] => none
  | (j, c) :: rest => if j = i then some c else limboLookup rest i

def limboRemove (l : List (Nat × Bytes)) (i : Nat) : List (Nat × Bytes) :=
  match l with
  | [] => []
  | (j, c) :: rest => if j = i then limboRemove rest i else (j, c) :: limboRemove rest i

/-- Move a rename source into its limbo slot (fails if the source is
missing). -/
def moveToLimbo (st : TransformState) (idx : Nat) (src : Bytes) :
    Except TransformError TransformState :=
  match fsLookup st.tree src with
  | none => .error (.sourceMissing src)
  | some c => .ok { tree := fsRemove st.tree src, limbo := st.limbo ++ [(idx, c)] }

/-- Move a limbo slot into its final place (fails if the target name is
still occupied — the collision the ordering must avoid). -/
def moveIntoPlace (st : TransformState) (idx : Nat) (dst : Bytes) :
    Except TransformError TransformState :=
  match limboLookup st.limbo idx with
  | none => .error (.limboMissing idx)
  | some c =>
    match fsLookup st.tree dst with
    | some _ => .error (.targetExists dst)
    | none => .ok { tree := st.tree ++ [(dst, c)], limbo := limboRemove st.limbo idx }

def transformPhaseOne (st : TransformState) (i : Nat) :
    List (Bytes × Bytes) → Except TransformError TransformState
  | [] => .ok st
  | (src, _) :: rest =>
    match moveToLimbo st i src with
    | .error e => .error e
    | .ok st1 => transformPhaseOne st1 (i + 1) rest

def transformPhaseTwo (st : TransformState) (i : Nat) :
    List (Bytes × Bytes) → Except TransformError TransformState
  | [] => .ok st
  | (_, dst) :: rest =>
    match moveIntoPlace st i dst with
    | .error e => .error e
    | .ok st1 => transformPhaseTwo st1 (i + 1) rest

/-- Apply a set of renames to a working tree: sources out to limbo first,
then limbo into final places, succeeding only with the limbo area empty. -/
def applyTransform (renames : List (Bytes × Bytes)) (tree : FsTree) :
    Except TransformError FsTree :=
  match transformPhaseOne { tree := tree, limbo := [] } 0 renames with
  | .error e => .error e
  | .ok st1 =>
    match transformPhaseTwo st1 0 renames with
    | .error e => .error e
    | .ok st2 => if st2.limbo.isEmpty then .ok st2.tree else .error .limboNotEmpty

/-- **C8.**  Transform ordering end-to-end: on a tree holding files `n1`
(content A) and `n2` (content B), applying the transform that swaps the two
names (the net effect of the rotation n1→temporary, n2→n1, temporary→n2)
succeeds with no transient name-collision failure, leaves no temporary (the
limbo area is empty and the final tree holds exactly the two names), and the
final tree has `n1` holding B — the old content of `n2` — and `n2` holding
A — the old content of `n1`. -/
theorem transform_swap_renames (n1 n2 A B : Bytes) (h : n1 ≠ n2) :
    applyTransform [(n1, n2), (n2, n1)] [(n1, A), (n2, B)] = .ok [(n2, A), (n1, B)] ∧
    fsLookup [(n2, A), (n1, B)] n1 = some B ∧
    fsLookup [(n2, A), (n1, B)] n2 = some A ∧
    ([(n2, A), (n1, B)] : FsTree).map Prod.fst = [n2, n1] := by
  have h21 : ¬(n2 = n1) := fun hx => h hx.symm
  have hm1 : moveToLimbo { tree := [(n1, A), (n2, B)], limbo := [] } 0 n1 =
      .ok { tree := [(n2, B)], limbo := [(0, A)] } := by
    simp [moveToLimbo, fsLookup, fsRemove, h21]
  have hm2 : moveToLimbo { tree := [(n2, B)], limbo := [(0, A)] } 1 n2 =
      .ok { tree := [], limbo := [(0, A), (1, B)] } := by
    simp [moveToLimbo, fsLookup, fsRemove]
  have hp1 : transformPhaseOne { tree := [(n1, A), (n2, B)], limbo := [] } 0
      [(n1, n2), (n2, n1)] = .ok { tree := [], limbo := [(0, A), (1, B)] } := by
    rw [transformPhaseOne, hm1]
    dsimp only
    rw [transformPhaseOne, hm2]
    dsimp only
    rw [transformPhaseOne]
  have hq1 : moveIntoPlace { tree := [], limbo := [(0, A), (1, B)] } 0 n2 =
      .ok { tree := [(n2, A)], limbo := [(1, B)] } := by
    simp [moveIntoPlace, limboLookup, fsLookup, limboRemove]
  have hq2 : moveIntoPlace { tree := [(n2, A)], limbo := [(1, B)] } 1 n1 =
      .ok { tree := [(n2, A), (n1, B)], limbo := [] } := by
    simp [moveIntoPlace, limboLookup, fsLookup, limboRemove, h21]
  have hp2 : transformPhaseTwo { tree := [], limbo := [(0, A), (1, B)] } 0
      [(n1, n2), (n2, n1)] = .ok { tree := [(n2, A), (n1, B)], limbo := [] } := by
    rw [transformPhaseTwo, hq1]
    dsimp only
    rw [transformPhaseTwo, hq2]
    dsimp only
    rw [transformPhaseTwo]
  refine ⟨?_, ?_, ?_, rfl⟩
  · rw [applyTransform.eq_def, hp1]
    dsimp only
    rw [hp2]
    rfl
  · simp [fsLookup, h21]
  · simp [fsLookup]

/-- **C8, witness**: the cited test's tree — files with contents `"UN"` and
`"DEUX"` — swapped by the rotation, ending with the contents exchanged and
no temporary name left. -/
theorem transform_swap_renames_witness :
    applyTransform [("foo".toList, "bar".toList), ("bar".toList, "foo".toList)]
        [("foo".toList, "UN".toList), ("bar".toList, "DEUX".toList)] =
      .ok [("bar".toList, "UN".toList), ("foo".toList, "DEUX".toList)] := by
  exact (transform_swap_renames ("foo".toList) ("bar".toList) ("UN".toList)
    ("DEUX".toList) (by decide)).1

/-! ## Server medium error handling in `_serve_one_request`

Modelled from the spec: the guarded serve loop of the server stream mediums
(`bzrlib/smart/medium.py`) is not part of this source tree; only its unit
tests are.  Per §7, the loop asks the protocol for `next_read_size()`, reads
(pipe-like: exactly that many bytes; socket: up to a fixed buffer size —
covered here by an arbitrary positive read-granularity function) and feeds
the protocol, until the hint is 0 or the stream ends.  An ordinary exception
escaping the protocol is caught: the medium writes nothing itself, closes
the outgoing stream/socket and marks itself finished; a `KeyboardInterrupt`
propagates to the caller.  `ErrorRaisingProtocol` — whose `next_read_size`
raises the stored exception — is embedded from the test suite itself
(`bzrlib/tests/test_smart_transport.py`). -/

inductive ServerExn where
  | ordinary
  | keyboardInterrupt
deriving DecidableEq, Repr

/-- A protocol as the serve loop sees it: the hint and the byte acceptance
may raise; accepting bytes yields the new protocol state and the response
bytes the protocol pushed through the medium's write function. -/
structure ServeProtocolOps (σ : Type) where
  nextReadSize : σ → Except ServerExn Nat
  acceptBytes : σ → Bytes → Except ServerExn (σ × Bytes)

/-- The unguarded serve loop: (outcome, unread input, bytes written, hit
end-of-stream).  `f` gives the medium's read granularity for a hint
(`hf`: always positive). -/
def serveUnguarded {σ : Type} (ops : ServeProtocolOps σ) (f : Nat → Nat)
    (hf : ∀ n, 0 < n → 0 < f n) (s : σ) (input : Bytes) (written : Bytes) :
    Except ServerExn σ × Bytes × Bytes × Bool :=
  match ops.nextReadSize s with
  | .error e => (.error e, input, written, false)
  | .ok 0 => (.ok s, input, written, false)
  | .ok (n + 1) =>
    match input with
    | [] => (.ok s, [], written, true)
    | c :: rest =>
      match ops.acceptBytes s ((c :: rest).take (f (n + 1))) with
      | .error e => (.error e, (c :: rest).drop (f (n + 1)), written, false)
      | .ok (s1, out) =>
        serveUnguarded ops f hf s1 ((c :: rest).drop (f (n + 1))) (written ++ out)
termination_by input.length
decreasing_by
  simp only [List.length_drop, List.length_cons]
  have := hf (n + 1) (Nat.succ_pos n)
  omega

/-- The observable outcome of one guarded serve: final protocol state (absent
when an exception tore the request down), unread bytes, bytes written to the
client, whether the outgoing stream was closed, whether the medium is
finished. -/
structure ServeOutcome (σ : Type) where
  protocolState : Option σ
  remaining : Bytes
  written : Bytes
  outClosed : Bool
  finished : Bool

/-- `_serve_one_request`: run the unguarded loop; an ordinary exception is
caught — nothing more is written, the outgoing stream is closed, the medium
is finished; a `KeyboardInterrupt` propagates (the `Except` error carries the
bytes written before it). -/
def serveOneRequest {σ : Type} (ops : ServeProtocolOps σ) (f : Nat → Nat)
    (hf : ∀ n, 0 < n → 0 < f n) (s : σ) (input : Bytes) :
    Except Bytes (ServeOutcome σ) :=
  match serveUnguarded ops f hf s input [] with
  | (.error .keyboardInterrupt, _, w, _) => .error w
  | (.error .ordinary, rest, w, _) =>
    .ok { protocolState := none, remaining := rest, written := w,
          outClosed := true, finished := true }
  | (.ok s1, rest, w, eof) =>
    .ok { protocolState := some s1, remaining := rest, written := w,
          outClosed := false, finished := eof }

/-- `ErrorRaisingProtocol` from the test suite: `next_read_size` raises the
stored exception. -/
def errorRaisingProtocol (e : ServerExn) : ServeProtocolOps Unit :=
  { nextReadSize := fun _ => .error e,
    acceptBytes := fun s _ => .ok (s, []) }

/-- **C10.**  For every server stream medium (any positive read granularity
`f`, covering pipe-like and socket mediums) and any pending input: when the
protocol raises an ordinary exception while one request is being served,
`_serve_one_request` writes no response bytes of its own — the client sees
exactly the bytes the protocol had already written, none at all for a
protocol failing on its first hint — closes the outgoing stream and marks
the medium finished; a `KeyboardInterrupt` instead propagates to the caller,
still with no bytes written. -/
theorem serveOneRequest_error_handling (f : Nat → Nat)
    (hf : ∀ n, 0 < n → 0 < f n) (input : Bytes) :
    serveOneRequest (errorRaisingProtocol .ordinary) f hf () input =
      .ok { protocolState := none, remaining := input, written := [],
            outClosed := true, finished := true } ∧
    serveOneRequest (errorRaisingProtocol .keyboardInterrupt) f hf () input =
      .error [] ∧
    (∀ {σ : Type} (ops : ServeProtocolOps σ) (s : σ) (rest w : Bytes) (eof : Bool),
      serveUnguarded ops f hf s input [] = (.error .ordinary, rest, w, eof) →
      serveOneRequest ops f hf s input =
        .ok { protocolState := none, remaining := rest, written := w,
              outClosed := true, finished := true }) ∧
    (∀ {σ : Type} (ops : ServeProtocolOps σ) (s : σ) (rest w : Bytes) (eof : Bool),
      serveUnguarded ops f hf s input [] = (.error .keyboardInterrupt, rest, w, eof) →
      serveOneRequest ops f hf s input = .error w) := by
  refine ⟨?_, ?_, ?_, ?_⟩
  · rw [serveOneRequest, serveUnguarded.eq_def]
    rfl
  · rw [serveOneRequest, serveUnguarded.eq_def]
    rfl
  · intro σ ops s rest w eof hrun
    rw [serveOneRequest, hrun]
  · intro σ ops s rest w eof hrun
    rw [serveOneRequest, hrun]

/-- **C10, witness**: the concrete scenario of the cited tests — an
`ErrorRaisingProtocol` served over an exhausted pipe with unit read
granularity. -/
theorem serveOneRequest_error_handling_witness :
    serveOneRequest (errorRaisingProtocol .ordinary) (fun n => n)
        (fun _ h => h) () [] =
      .ok { protocolState := none, remaining := [], written := [],
            outClosed := true, finished := true } ∧
    serveOneRequest (errorRaisingProtocol .keyboardInterrupt) (fun n => n)
        (fun _ h => h) () [] = .error [] := by
  refine ⟨?_, ?_⟩
  · exact (serveOneRequest_error_handling (fun n => n) (fun _ h => h) []).1
  · exact (serveOneRequest_error_handling (fun n => n) (fun _ h => h) []).2.1

/-! ## Conflict records and their stanza serialization

Modelled from the spec: `bzrlib/conflicts.py` is not part of this source
tree; only its unit tests are.  Per §3 and the modelling note of §9, the
nine conflict variants form a closed sum; each value carries the fields its
constructor takes in the test suite (`test_conflicts.py`): the handled
variants an action, a path and an optional file-id; the path-pair variants
additionally an optional second path and second file-id.  A conflict
serializes to a stanza — a key-value form with keys `type`, `path`,
`file_id`, `conflict_path`, `conflict_file_id`, `action`, optional fields
simply absent — and `Conflict.factory` rebuilds the conflict from the
stanza's mapping, dispatching on `type`. -/

inductive Conflict where
  | missingParent (action path : Bytes) (fileId : Option Bytes)
  | unversionedParent (action path : Bytes) (fileId : Option Bytes)
  | nonDirectoryParent (action path : Bytes) (fileId : Option Bytes)
  | contentsConflict (path : Bytes) (conflictPath fileId : Option Bytes)
  | pathConflict (path : Bytes) (conflictPath fileId : Option Bytes)
  | textConflict (path : Bytes) (conflictPath fileId : Option Bytes)
  | duplicateID (action path : Bytes) (conflictPath fileId conflictFileId : Option Bytes)
  | duplicateEntry (action path : Bytes) (conflictPath fileId conflictFileId : Option Bytes)
  | parentLoop (action path : Bytes) (conflictPath fileId conflictFileId : Option Bytes)
deriving DecidableEq, Repr

/-- A stanza: the canonical key-value form of one conflict. -/
abbrev Stanza := List (Bytes × Bytes)

/-- An optional stanza field: absent when the value is absent. -/
def optField (k : Bytes) : Option Bytes → Stanza
  | none => []
  | some v => [(k, v)]

/-- `as_stanza`: serialize one conflict to its key-value form. -/
def conflictAsStanza : Conflict → Stanza
  | .missingParent a p fid =>
    [("type".toList, "missing parent".toList), ("path".toList, p)] ++
      optField "file_id".toList fid ++ [("action".toList, a)]
  | .unversionedParent a p fid =>
    [("type".toList, "unversioned parent".toList), ("path".toList, p)] ++
      optField "file_id".toList fid ++ [("action".toList, a)]
  | .nonDirectoryParent a p fid =>
    [("type".toList, "non-directory parent".toList), ("path".toList, p)] ++
      optField "file_id".toList fid ++ [("action".toList, a)]
  | .contentsConflict p cp fid =>
    [("type".toList, "contents conflict".toList), ("path".toList, p)] ++
      optField "conflict_path".toList cp ++ optField "file_id".toList fid
  | .pathConflict p cp fid =>
    [("type".toList, "path conflict".toList), ("path".toList, p)] ++
      optField "conflict_path".toList cp ++ optField "file_id".toList fid
  | .textConflict p cp fid =>
    [("type".toList, "text conflict".toList), ("path".toList, p)] ++
      optField "conflict_path".toList cp ++ optField "file_id".toList fid
  | .duplicateID a p cp fid cfid =>
    [("type".toList, "duplicate id".toList), ("path".toList, p)] ++
      optField "conflict_path".toList cp ++ optField "file_id".toList fid ++
      optField "conflict_file_id".toList cfid ++ [("action".toList, a)]
  | .duplicateEntry a p cp fid cfid =>
    [("type".toList, "duplicate".toList), ("path".toList, p)] ++
      optField "conflict_path".toList cp ++ optField "file_id".toList fid ++
      optField "conflict_file_id".toList cfid ++ [("action".toList, a)]
  | .parentLoop a p cp fid cfid =>
    [("type".toList, "parent loop".toList), ("path".toList, p)] ++
      optField "conflict_path".toList cp ++ optField "file_id".toList fid ++
      optField "conflict_file_id".toList cfid ++ [("action".toList, a)]

/-- `Conflict.factory(**stanza.as_dict())`: rebuild a conflict from the
stanza's key-value mapping, dispatching on the `type` field; fails on an
unknown type or missing mandatory field. -/
def conflictFromStanza (st : Stanza) : Option Conflict :=
  match fsLookup st "type".toList, fsLookup st "path".toList with
  | some ts, some p =>
    let fid := fsLookup st "file_id".toList
    let cp := fsLookup st "conflict_path".toList
    let cfid := fsLookup st "conflict_file_id".toList
    if ts = "missing parent".toList then
      (fsLookup st "action".toList).map fun a => .missingParent a p fid
    else if ts = "unversioned parent".toList then
      (fsLookup st "action".toList).map fun a => .unversionedParent a p fid
    else if ts = "non-directory parent".toList then
      (fsLookup st "action".toList).map fun a => .nonDirectoryParent a p fid
    else if ts = "contents conflict".toList then
      some (.contentsConflict p cp fid)
    else if ts = "path conflict".toList then
      some (.pathConflict p cp fid)
    else if ts = "text conflict".toList then
      some (.textConflict p cp fid)
    else if ts = "duplicate id".toList then
      (fsLookup st "action".toList).map fun a => .duplicateID a p cp fid cfid
    else if ts = "duplicate".toList then
      (fsLookup st "action".toList).map fun a => .duplicateEntry a p cp fid cfid
    else if ts = "parent loop".toList then
      (fsLookup st "action".toList).map fun a => .parentLoop a p cp fid cfid
    else none
  | _, _ => none

/-- `ConflictList.to_stanzas`. -/
def conflictListToStanzas (cs : List Conflict) : List Stanza :=
  cs.map conflictAsStanza

/-- `ConflictList.from_stanzas`: rebuild each conflict in order. -/
def conflictListFromStanzas (sts : List Stanza) : Option (List Conflict) :=
  match sts with
  | [] => some []
  | st :: rest =>
    match conflictFromStanza st, conflictListFromStanzas rest with
    | some c, some cs => some (c :: cs)
    | _, _ => none

/-- **C6.**  Round-trip of the conflict serialization: for every conflict of
every variant, decoding its encoded stanza yields the conflict back; and
element-wise over whole conflict lists, `from_stanzas (to_stanzas cs)`
returns the original list. -/
theorem conflict_stanza_roundtrip :
    (∀ c : Conflict, conflictFromStanza (conflictAsStanza c) = some c) ∧
    (∀ cs : List Conflict,
      conflictListFromStanzas (conflictListToStanzas cs) = some cs) := by
  have hone : ∀ c : Conflict, conflictFromStanza (conflictAsStanza c) = some c := by
    intro c
    cases c with
    | missingParent a p fid => cases fid <;> rfl
    | unversionedParent a p fid => cases fid <;> rfl
    | nonDirectoryParent a p fid => cases fid <;> rfl
    | contentsConflict p cp fid => cases cp <;> cases fid <;> rfl
    | pathConflict p cp fid => cases cp <;> cases fid <;> rfl
    | textConflict p cp fid => cases cp <;> cases fid <;> rfl
    | duplicateID a p cp fid cfid => cases cp <;> cases fid <;> cases cfid <;> rfl
    | duplicateEntry a p cp fid cfid => cases cp <;> cases fid <;> cases cfid <;> rfl
    | parentLoop a p cp fid cfid => cases cp <;> cases fid <;> cases cfid <;> rfl
  refine ⟨hone, ?_⟩
  intro cs
  induction cs with
  | nil => rfl
  | cons c rest ih =>
    rw [conflictListToStanzas] at ih ⊢
    rw [List.map_cons, conflictListFromStanzas, hone c, ih]

/-! ## Chunked body decoder (protocol v2)

Modelled from the spec: the implementation (`ChunkedBodyDecoder` in
`bzrlib/smart/protocol.py`) is not part of this source tree; only its unit
tests are.  Per §4.2: states AwaitingHeader (the `"chunked\n"` literal) →
AwaitingChunkLength (hexadecimal, newline-terminated) →
AwaitingChunkContent(remaining) → loop, until `"END\n"` (success) or
`"ERR\n"` followed by chunk-encoded error arguments and `"END\n"`.
`accept_bytes` appends to an input buffer and then processes it as far as
possible, so parsing resumes correctly across arbitrary read boundaries.
Bytes after the terminator are preserved verbatim as `unused_data`.  A
malformed header or length is a fatal decode error, modelled as an
absorbing `decodeError` state (the Python code raises out of `accept_bytes`
and the decoder stops making progress).  The Failed-response sentinel that
`read_next_chunk` yields in the error case is recoverable from the
`errorFlag`/`errorArgs` fields, which the state carries. -/

/-- Whether a byte is a hexadecimal digit. -/
def isHexDigit (c : Char) : Bool :=
  isDigitCh c || (97 ≤ c.toNat && c.toNat ≤ 102) || (65 ≤ c.toNat && c.toNat ≤ 70)

def hexVal (c : Char) : Nat :=
  if c.toNat ≤ 57 then c.toNat - 48
  else if c.toNat ≤ 70 then c.toNat - 55
  else c.toNat - 87

/-- Python `int(s, 16)` on the chunk length prefixes: hexadecimal digits,
tolerating the `0x` prefix that `hex()` produces (the cited multi-digit
test relies on this). -/
def parseHexLen (s : Bytes) : Option Nat :=
  let core := match s with
    | '0' :: 'x' :: rest => rest
    | _ => s
  match core with
  | [] => none
  | _ =>
    if core.all isHexDigit then
      some (core.foldl (fun acc c => 16 * acc + hexVal c) 0)
    else none

/-- The chunked body header literal, `"chunked\n"`. -/
def chunkedMarker : Bytes := "chunked\n".toList

/-- The chunked body success terminator line, `"END\n"`. -/
def endMarker : Bytes := "END\n".toList

/-- The chunked body error signal line, `"ERR\n"`. -/
def errMarker : Bytes := "ERR\n".toList

inductive ChunkMode where
  | expectingHeader
  | expectingLength
  | readingChunk (bytesLeft : Nat)
  | readingUnused
  | decodeError
deriving DecidableEq, Repr

structure ChunkedBodyDecoder where
  mode : ChunkMode
  inBuffer : Bytes
  chunkInProgress : Bytes
  chunks : List Bytes
  errorFlag : Bool
  errorArgs : List Bytes
  finishedReading : Bool
  unusedData : Bytes
deriving DecidableEq, Repr

def initCBD : ChunkedBodyDecoder :=
  { mode := .expectingHeader, inBuffer := [], chunkInProgress := [], chunks := [],
    errorFlag := false, errorArgs := [], finishedReading := false, unusedData := [] }

/-- A completed chunk goes to the content chunks, or to the error arguments
once `"ERR\n"` has been seen. -/
def finishChunk (d : ChunkedBodyDecoder) : ChunkedBodyDecoder :=
  { d with
    chunks := if d.errorFlag then d.chunks else d.chunks ++ [d.chunkInProgress],
    errorArgs := if d.errorFlag then d.errorArgs ++ [d.chunkInProgress] else d.errorArgs,
    chunkInProgress := [] }

def chunkModeRank : ChunkMode → Nat
  | .readingChunk _ => 1
  | .expectingHeader => 0
  | .expectingLength => 0
  | .readingUnused => 0
  | .decodeError => 0

/-- Process the input buffer as far as possible (the state-function loop the
Python `accept_bytes` drives until no state change occurs). -/
def runCBD (d : ChunkedBodyDecoder) : ChunkedBodyDecoder :=
  match hm : d.mode with
  | .expectingHeader =>
    if hasNL d.inBuffer then
      if takeLine d.inBuffer = chunkedMarker then
        runCBD { d with mode := .expectingLength, inBuffer := dropLine d.inBuffer }
      else { d with mode := .decodeError }
    else d
  | .expectingLength =>
    if hasNL d.inBuffer then
      if takeLine d.inBuffer = endMarker then
        runCBD { d with mode := .readingUnused, finishedReading := true,
                        inBuffer := dropLine d.inBuffer }
      else if takeLine d.inBuffer = errMarker then
        runCBD { d with errorFlag := true, inBuffer := dropLine d.inBuffer }
      else
        match parseHexLen (takeLine d.inBuffer).dropLast with
        | none => { d with mode := .decodeError }
        | some 0 => runCBD (finishChunk { d with inBuffer := dropLine d.inBuffer })
        | some (n + 1) =>
          runCBD { d with mode := .readingChunk (n + 1), inBuffer := dropLine d.inBuffer }
    else d
  | .readingChunk n =>
    match hbuf : d.inBuffer with
    | [] => d
    | c :: cs =>
      if (c :: cs).length < n then
        { d with mode := .readingChunk (n - (c :: cs).length),
                 chunkInProgress := d.chunkInProgress ++ (c :: cs), inBuffer := [] }
      else
        runCBD (finishChunk
          { d with mode := .expectingLength,
                   chunkInProgress := d.chunkInProgress ++ (c :: cs).take n,
                   inBuffer := (c :: cs).drop n })
  | .readingUnused => { d with unusedData := d.unusedData ++ d.inBuffer, inBuffer := [] }
  | .decodeError => d
termination_by (d.inBuffer.length, chunkModeRank d.mode)
decreasing_by
  · exact Prod.Lex.left _ _ (length_dropLine_lt (by assumption))
  · exact Prod.Lex.left _ _ (length_dropLine_lt (by assumption))
  · exact Prod.Lex.left _ _ (length_dropLine_lt (by assumption))
  · exact Prod.Lex.left _ _ (by
      simpa [finishChunk] using length_dropLine_lt (by assumption))
  · exact Prod.Lex.left _ _ (length_dropLine_lt (by assumption))
  · simp only [finishChunk, hbuf, List.length_drop, List.length_cons, chunkModeRank]
    by_cases hn : n = 0
    · subst hn
      simp only [Nat.sub_zero]
      rw [hm]
      exact Prod.Lex.right _ (by simp [chunkModeRank])
    · exact Prod.Lex.left _ _ (by omega)

/-- `accept_bytes`: append the new bytes and process as far as possible. -/
def cbdAccept (d : ChunkedBodyDecoder) (bs : Bytes) : ChunkedBodyDecoder :=
  runCBD { d with inBuffer := d.inBuffer ++ bs }

/-- `read_next_chunk`: the next completed content chunk, or the sentinel
`none` once drained (the state equality the theorems establish makes every
such observation agree as well). -/
def readNextChunk (d : ChunkedBodyDecoder) : Option Bytes × ChunkedBodyDecoder :=
  match d.chunks with
  | [] => (none, d)
  | c :: rest => (some c, { d with chunks := rest })

/-! Branch-level equations for `runCBD`, phrased over explicit decoder
states. -/

theorem runCBD_header_nonl {buf : Bytes} (h : hasNL buf = false)
    (cip : Bytes) (chs : List Bytes) (ef : Bool) (ea : List Bytes) (fr : Bool)
    (ud : Bytes) :
    runCBD ⟨.expectingHeader, buf, cip, chs, ef, ea, fr, ud⟩ =
      ⟨.expectingHeader, buf, cip, chs, ef, ea, fr, ud⟩ := by
  conv_lhs => rw [runCBD.eq_def]
  simp [h]

theorem runCBD_header_good {buf : Bytes} (h : hasNL buf = true)
    (hline : takeLine buf = chunkedMarker)
    (cip : Bytes) (chs : List Bytes) (ef : Bool) (ea : List Bytes) (fr : Bool)
    (ud : Bytes) :
    runCBD ⟨.expectingHeader, buf, cip, chs, ef, ea, fr, ud⟩ =
      runCBD ⟨.expectingLength, dropLine buf, cip, chs, ef, ea, fr, ud⟩ := by
  conv_lhs => rw [runCBD.eq_def]
  simp [h, hline]

theorem runCBD_header_bad {buf : Bytes} (h : hasNL buf = true)
    (hline : ¬ takeLine buf = chunkedMarker)
    (cip : Bytes) (chs : List Bytes) (ef : Bool) (ea : List Bytes) (fr : Bool)
    (ud : Bytes) :
    runCBD ⟨.expectingHeader, buf, cip, chs, ef, ea, fr, ud⟩ =
      ⟨.decodeError, buf, cip, chs, ef, ea, fr, ud⟩ := by
  conv_lhs => rw [runCBD.eq_def]
  simp [h, hline]

theorem runCBD_len_nonl {buf : Bytes} (h : hasNL buf = false)
    (cip : Bytes) (chs : List Bytes) (ef : Bool) (ea : List Bytes) (fr : Bool)
    (ud : Bytes) :
    runCBD ⟨.expectingLength, buf, cip, chs, ef, ea, fr, ud⟩ =
      ⟨.expectingLength, buf, cip, chs, ef, ea, fr, ud⟩ := by
  conv_lhs => rw [runCBD.eq_def]
  simp [h]

theorem runCBD_len_end {buf : Bytes} (h : hasNL buf = true)
    (hline : takeLine buf = endMarker)
    (cip : Bytes) (chs : List Bytes) (ef : Bool) (ea : List Bytes) (fr : Bool)
    (ud : Bytes) :
    runCBD ⟨.expectingLength, buf, cip, chs, ef, ea, fr, ud⟩ =
      runCBD ⟨.readingUnused, dropLine buf, cip, chs, ef, ea, true, ud⟩ := by
  conv_lhs => rw [runCBD.eq_def]
  simp [h, hline]

theorem runCBD_len_err {buf : Bytes} (h : hasNL buf = true)
    (hend : ¬ takeLine buf = endMarker)
    (hline : takeLine buf = errMarker)
    (cip : Bytes) (chs : List Bytes) (ef : Bool) (ea : List Bytes) (fr : Bool)
    (ud : Bytes) :
    runCBD ⟨.expectingLength, buf, cip, chs, ef, ea, fr, ud⟩ =
      runCBD ⟨.expectingLength, dropLine buf, cip, chs, true, ea, fr, ud⟩ := by
  conv_lhs => rw [runCBD.eq_def]
  simp [h, hend, hline, show ¬(errMarker = endMarker) from by decide]

theorem runCBD_len_badhex {buf : Bytes} (h : hasNL buf = true)
    (hend : ¬ takeLine buf = endMarker)
    (herr : ¬ takeLine buf = errMarker)
    (hhex : parseHexLen (takeLine buf).dropLast = none)
    (cip : Bytes) (chs : List Bytes) (ef : Bool) (ea : List Bytes) (fr : Bool)
    (ud : Bytes) :
    runCBD ⟨.expectingLength, buf, cip, chs, ef, ea, fr, ud⟩ =
      ⟨.decodeError, buf, cip, chs, ef, ea, fr, ud⟩ := by
  conv_lhs => rw [runCBD.eq_def]
  simp [h, hend, herr, hhex]

theorem runCBD_len_zero {buf : Bytes} (h : hasNL buf = true)
    (hend : ¬ takeLine buf = endMarker)
    (herr : ¬ takeLine buf = errMarker)
    (hhex : parseHexLen (takeLine buf).dropLast = some 0)
    (cip : Bytes) (chs : List Bytes) (ef : Bool) (ea : List Bytes) (fr : Bool)
    (ud : Bytes) :
    runCBD ⟨.expectingLength, buf, cip, chs, ef, ea, fr, ud⟩ =
      runCBD (finishChunk ⟨.expectingLength, dropLine buf, cip, chs, ef, ea, fr, ud⟩) := by
  conv_lhs => rw [runCBD.eq_def]
  simp [h, hend, herr, hhex]

theorem runCBD_len_succ {buf : Bytes} {n : Nat} (h : hasNL buf = true)
    (hend : ¬ takeLine buf = endMarker)
    (herr : ¬ takeLine buf = errMarker)
    (hhex : parseHexLen (takeLine buf).dropLast = some (n + 1))
    (cip : Bytes) (chs : List Bytes) (ef : Bool) (ea : List Bytes) (fr : Bool)
    (ud : Bytes) :
    runCBD ⟨.expectingLength, buf, cip, chs, ef, ea, fr, ud⟩ =
      runCBD ⟨.readingChunk (n + 1), dropLine buf, cip, chs, ef, ea, fr, ud⟩ := by
  conv_lhs => rw [runCBD.eq_def]
  simp [h, hend, herr, hhex]

theorem runCBD_chunk_nil (n : Nat)
    (cip : Bytes) (chs : List Bytes) (ef : Bool) (ea : List Bytes) (fr : Bool)
    (ud : Bytes) :
    runCBD ⟨.readingChunk n, [], cip, chs, ef, ea, fr, ud⟩ =
      ⟨.readingChunk n, [], cip, chs, ef, ea, fr, ud⟩ := by
  conv_lhs => rw [runCBD.eq_def]

theorem runCBD_chunk_short {n : Nat} {c : Char} {cs : Bytes}
    (h : (c :: cs).length < n)
    (cip : Bytes) (chs : List Bytes) (ef : Bool) (ea : List Bytes) (fr : Bool)
    (ud : Bytes) :
    runCBD ⟨.readingChunk n, c :: cs, cip, chs, ef, ea, fr, ud⟩ =
      ⟨.readingChunk (n - (c :: cs).length), [], cip ++ (c :: cs), chs, ef, ea, fr, ud⟩ := by
  conv_lhs => rw [runCBD.eq_def]
  dsimp only
  rw [if_pos h]

theorem runCBD_chunk_complete {n : Nat} {c : Char} {cs : Bytes}
    (h : ¬ (c :: cs).length < n)
    (cip : Bytes) (chs : List Bytes) (ef : Bool) (ea : List Bytes) (fr : Bool)
    (ud : Bytes) :
    runCBD ⟨.readingChunk n, c :: cs, cip, chs, ef, ea, fr, ud⟩ =
      runCBD (finishChunk ⟨.expectingLength, (c :: cs).drop n,
        cip ++ (c :: cs).take n, chs, ef, ea, fr, ud⟩) := by
  conv_lhs => rw [runCBD.eq_def]
  dsimp only
  rw [if_neg h]

theorem runCBD_unused (buf : Bytes)
    (cip : Bytes) (chs : List Bytes) (ef : Bool) (ea : List Bytes) (fr : Bool)
    (ud : Bytes) :
    runCBD ⟨.readingUnused, buf, cip, chs, ef, ea, fr, ud⟩ =
      ⟨.readingUnused, [], cip, chs, ef, ea, fr, ud ++ buf⟩ := by
  conv_lhs => rw [runCBD.eq_def]

theorem runCBD_error (buf : Bytes)
    (cip : Bytes) (chs : List Bytes) (ef : Bool) (ea : List Bytes) (fr : Bool)
    (ud : Bytes) :
    runCBD ⟨.decodeError, buf, cip, chs, ef, ea, fr, ud⟩ =
      ⟨.decodeError, buf, cip, chs, ef, ea, fr, ud⟩ := by
  conv_lhs => rw [runCBD.eq_def]

theorem hasNL_append_left {a : Bytes} (b : Bytes) (h : hasNL a = true) :
    hasNL (a ++ b) = true := by
  rw [hasNL_append, h]
  rfl

/-- Incremental processing: running the decoder on a buffer extended by new
bytes gives the same state as first running it on the old buffer alone and
then continuing with the new bytes.  Strong induction on the processing
measure; `k` bounds it. -/
theorem runCBD_append_aux (k : Nat) :
    ∀ (mode : ChunkMode) (buf cip : Bytes) (chs : List Bytes) (ef : Bool)
      (ea : List Bytes) (fr : Bool) (ud bs : Bytes),
      2 * buf.length + chunkModeRank mode ≤ k →
      runCBD ⟨mode, buf ++ bs, cip, chs, ef, ea, fr, ud⟩ =
        runCBD { (runCBD ⟨mode, buf, cip, chs, ef, ea, fr, ud⟩) with
                 inBuffer := (runCBD ⟨mode, buf, cip, chs, ef, ea, fr, ud⟩).inBuffer ++ bs } := by
  induction k using Nat.strong_induction_on with
  | _ k IH =>
    intro mode buf cip chs ef ea fr ud bs hk
    cases mode with
    | expectingHeader =>
      cases h1 : hasNL buf with
      | false =>
        rw [runCBD_header_nonl h1]
      | true =>
        have h1b := hasNL_append_left bs h1
        have htl : takeLine (buf ++ bs) = takeLine buf := takeLine_append_of_hasNL bs h1
        have hdl : dropLine (buf ++ bs) = dropLine buf ++ bs := dropLine_append_of_hasNL bs h1
        by_cases h2 : takeLine buf = chunkedMarker
        · rw [runCBD_header_good h1 h2, runCBD_header_good h1b (htl.trans h2), hdl]
          exact IH (2 * (dropLine buf).length + chunkModeRank .expectingLength)
            (by
              have := length_dropLine_lt h1
              simp only [chunkModeRank] at hk ⊢
              omega)
            .expectingLength (dropLine buf) cip chs ef ea fr ud bs (le_refl _)
        · rw [runCBD_header_bad h1 h2,
            runCBD_header_bad h1b (by rw [htl]; exact h2)]
          dsimp only
          rw [runCBD_error]
    | expectingLength =>
      cases h1 : hasNL buf with
      | false =>
        rw [runCBD_len_nonl h1]
      | true =>
        have h1b := hasNL_append_left bs h1
        have htl : takeLine (buf ++ bs) = takeLine buf := takeLine_append_of_hasNL bs h1
        have hdl : dropLine (buf ++ bs) = dropLine buf ++ bs := dropLine_append_of_hasNL bs h1
        have hkd : 2 * (dropLine buf).length < k := by
          have := length_dropLine_lt h1
          simp only [chunkModeRank] at hk
          omega
        by_cases h2 : takeLine buf = endMarker
        · rw [runCBD_len_end h1 h2, runCBD_len_end h1b (htl.trans h2), hdl]
          exact IH (2 * (dropLine buf).length + chunkModeRank .readingUnused)
            (by simp only [chunkModeRank]; omega)
            .readingUnused (dropLine buf) cip chs ef ea true ud bs (le_refl _)
        · by_cases h3 : takeLine buf = errMarker
          · rw [runCBD_len_err h1 h2 h3,
              runCBD_len_err h1b (by rw [htl]; exact h2) (htl.trans h3), hdl]
            exact IH (2 * (dropLine buf).length + chunkModeRank .expectingLength)
              (by simp only [chunkModeRank]; omega)
              .expectingLength (dropLine buf) cip chs true ea fr ud bs (le_refl _)
          · match hx : parseHexLen (takeLine buf).dropLast with
            | none =>
              rw [runCBD_len_badhex h1 h2 h3 hx,
                runCBD_len_badhex h1b (by rw [htl]; exact h2) (by rw [htl]; exact h3)
                  (by rw [htl]; exact hx)]
              dsimp only
              rw [runCBD_error]
            | some 0 =>
              rw [runCBD_len_zero h1 h2 h3 hx,
                runCBD_len_zero h1b (by rw [htl]; exact h2) (by rw [htl]; exact h3)
                  (by rw [htl]; exact hx), hdl]
              rw [show finishChunk ⟨.expectingLength, dropLine buf ++ bs, cip, chs, ef, ea, fr, ud⟩ =
                    ⟨.expectingLength, dropLine buf ++ bs, [],
                     if ef then chs else chs ++ [cip], ef,
                     if ef then ea ++ [cip] else ea, fr, ud⟩ from rfl,
                  show finishChunk ⟨.expectingLength, dropLine buf, cip, chs, ef, ea, fr, ud⟩ =
                    ⟨.expectingLength, dropLine buf, [],
                     if ef then chs else chs ++ [cip], ef,
                     if ef then ea ++ [cip] else ea, fr, ud⟩ from rfl]
              exact IH (2 * (dropLine buf).length + chunkModeRank .expectingLength)
                (by simp only [chunkModeRank]; omega)
                .expectingLength (dropLine buf) [] (if ef then chs else chs ++ [cip]) ef
                (if ef then ea ++ [cip] else ea) fr ud bs (le_refl _)
            | some (n + 1) =>
              rw [runCBD_len_succ h1 h2 h3 hx,
                runCBD_len_succ h1b (by rw [htl]; exact h2) (by rw [htl]; exact h3)
                  (by rw [htl]; exact hx), hdl]
              exact IH (2 * (dropLine buf).length + chunkModeRank (.readingChunk (n + 1)))
                (by
                  have hd := length_dropLine_lt h1
                  have e0 : chunkModeRank ChunkMode.expectingLength = 0 := rfl
                  simp only [chunkModeRank]
                  omega)
                (.readingChunk (n + 1)) (dropLine buf) cip chs ef ea fr ud bs (le_refl _)
    | readingChunk n =>
      cases buf with
      | nil =>
        rw [runCBD_chunk_nil n]
      | cons c cs =>
        by_cases hlt : (c :: cs).length < n
        · -- the chunk is still incomplete after the old buffer
          rw [runCBD_chunk_short hlt]
          dsimp only
          simp only [List.nil_append]
          cases bs with
          | nil =>
            simp only [List.append_nil]
            rw [runCBD_chunk_short hlt, runCBD_chunk_nil]
          | cons b bs2 =>
            by_cases hlt2 : (c :: (cs ++ b :: bs2)).length < n
            · -- still incomplete even with the new bytes
              have hlt3 : (b :: bs2).length < n - (c :: cs).length := by
                simp only [List.length_cons, List.length_append] at hlt2 ⊢
                omega
              rw [show ((c :: cs) ++ b :: bs2 : Bytes) = c :: (cs ++ b :: bs2) from rfl,
                runCBD_chunk_short hlt2, runCBD_chunk_short hlt3]
              have e1 : n - (c :: (cs ++ b :: bs2)).length =
                  n - (c :: cs).length - (b :: bs2).length := by
                simp only [List.length_cons, List.length_append]
                omega
              have e2 : cip ++ c :: (cs ++ b :: bs2) =
                  (cip ++ c :: cs) ++ b :: bs2 := by
                simp
              rw [e1, e2]
            · -- the new bytes complete the chunk
              have hlt3 : ¬ (b :: bs2).length < n - (c :: cs).length := by
                simp only [List.length_cons, List.length_append] at hlt2 ⊢
                omega
              rw [show ((c :: cs) ++ b :: bs2 : Bytes) = c :: (cs ++ b :: bs2) from rfl,
                runCBD_chunk_complete hlt2, runCBD_chunk_complete hlt3]
              have e1 : (c :: (cs ++ b :: bs2)).drop n =
                  (b :: bs2).drop (n - (c :: cs).length) := by
                rw [show (c :: (cs ++ b :: bs2) : Bytes) = (c :: cs) ++ (b :: bs2) from rfl,
                  List.drop_append_eq_append_drop,
                  List.drop_of_length_le (le_of_lt hlt), List.nil_append]
              have e2 : cip ++ (c :: (cs ++ b :: bs2)).take n =
                  (cip ++ c :: cs) ++ (b :: bs2).take (n - (c :: cs).length) := by
                rw [show (c :: (cs ++ b :: bs2) : Bytes) = (c :: cs) ++ (b :: bs2) from rfl,
                  List.take_append_eq_append_take,
                  List.take_of_length_le (le_of_lt hlt), List.append_assoc]
              rw [e1, e2]
        · -- the old buffer already completes the chunk
          have hge : n ≤ (c :: cs).length := Nat.le_of_not_lt hlt
          have hlt2 : ¬ (c :: (cs ++ bs)).length < n := by
            simp only [List.length_cons, List.length_append] at hge ⊢
            omega
          have e1 : (c :: (cs ++ bs)).drop n = (c :: cs).drop n ++ bs := by
            rw [show (c :: (cs ++ bs) : Bytes) = (c :: cs) ++ bs from rfl,
              List.drop_append_eq_append_drop, Nat.sub_eq_zero_of_le hge,
              List.drop_zero]
          have e2 : (c :: (cs ++ bs)).take n = (c :: cs).take n := by
            rw [show (c :: (cs ++ bs) : Bytes) = (c :: cs) ++ bs from rfl,
              List.take_append_eq_append_take, Nat.sub_eq_zero_of_le hge,
              List.take_zero, List.append_nil]
          rw [show ((c :: cs) ++ bs : Bytes) = c :: (cs ++ bs) from rfl,
            runCBD_chunk_complete hlt2, runCBD_chunk_complete hlt, e1, e2]
          rw [show finishChunk ⟨.expectingLength, (c :: cs).drop n ++ bs,
                cip ++ (c :: cs).take n, chs, ef, ea, fr, ud⟩ =
              ⟨.expectingLength, (c :: cs).drop n ++ bs, [],
               if ef then chs else chs ++ [cip ++ (c :: cs).take n], ef,
               if ef then ea ++ [cip ++ (c :: cs).take n] else ea, fr, ud⟩ from rfl,
            show finishChunk ⟨.expectingLength, (c :: cs).drop n,
                cip ++ (c :: cs).take n, chs, ef, ea, fr, ud⟩ =
              ⟨.expectingLength, (c :: cs).drop n, [],
               if ef then chs else chs ++ [cip ++ (c :: cs).take n], ef,
               if ef then ea ++ [cip ++ (c :: cs).take n] else ea, fr, ud⟩ from rfl]
          exact IH (2 * ((c :: cs).drop n).length + chunkModeRank .expectingLength)
            (by
              simp only [chunkModeRank, List.length_drop, List.length_cons] at hk ⊢
              omega)
            .expectingLength ((c :: cs).drop n) []
            (if ef then chs else chs ++ [cip ++ (c :: cs).take n]) ef
            (if ef then ea ++ [cip ++ (c :: cs).take n] else ea) fr ud bs (le_refl _)
    | readingUnused =>
      rw [runCBD_unused (buf ++ bs)]
      rw [runCBD_unused buf]
      dsimp only
      simp only [List.nil_append]
      rw [runCBD_unused bs]
      simp [List.append_assoc]
    | decodeError =>
      rw [runCBD_error buf]

theorem runCBD_append (d : ChunkedBodyDecoder) (bs : Bytes) :
    runCBD { d with inBuffer := d.inBuffer ++ bs } =
      runCBD { (runCBD d) with inBuffer := (runCBD d).inBuffer ++ bs } := by
  obtain ⟨mode, buf, cip, chs, ef, ea, fr, ud⟩ := d
  exact runCBD_append_aux (2 * buf.length + chunkModeRank mode) mode buf cip chs ef
    ea fr ud bs (le_refl _)

/-- `accept_bytes` is an action of the byte-string monoid on decoder states:
feeding two pieces one after the other equals feeding their
concatenation. -/
theorem cbdAccept_append (d : ChunkedBodyDecoder) (a b : Bytes) :
    cbdAccept (cbdAccept d a) b = cbdAccept d (a ++ b) := by
  unfold cbdAccept
  rw [← List.append_assoc]
  exact (runCBD_append { d with inBuffer := d.inBuffer ++ a } b).symm

theorem foldl_cbdAccept (d : ChunkedBodyDecoder) (x : Bytes) (parts : List Bytes) :
    List.foldl cbdAccept (cbdAccept d x) parts = cbdAccept d (x ++ parts.flatten) := by
  induction parts generalizing x with
  | nil => simp
  | cons p ps ih =>
    rw [List.foldl_cons, cbdAccept_append, ih (x ++ p), List.flatten_cons,
      List.append_assoc]

theorem flatten_map_singleton (l : Bytes) :
    (l.map (fun b => ([b] : Bytes))).flatten = l := by
  induction l with
  | nil => rfl
  | cons c cs ih => simp [ih]

/-- **C3.**  Byte-at-a-time equivalence for the chunked body decoder: for
every payload — in particular every complete, valid chunked body — and
every decoder state reached by `accept_bytes` (here: a fresh decoder after
any first delivery), delivering the remaining bytes one byte at a time, or
split into arbitrary pieces, yields exactly the same final decoder state as
delivering them in a single `accept_bytes` call; since the full state
coincides, so does every observation (`finished_reading`, the chunk
sequence `read_next_chunk` yields, `unused_data`, the error flag and
arguments).  The underlying law: feeding two byte strings one after the
other equals feeding their concatenation. -/
theorem chunked_byte_at_a_time (first payload : Bytes) (parts : List Bytes) :
    (List.foldl (fun st b => cbdAccept st [b]) (cbdAccept initCBD first) payload =
      cbdAccept initCBD (first ++ payload)) ∧
    (List.foldl cbdAccept (cbdAccept initCBD first) parts =
      cbdAccept initCBD (first ++ parts.flatten)) ∧
    (∀ (d : ChunkedBodyDecoder) (a b : Bytes),
      cbdAccept (cbdAccept d a) b = cbdAccept d (a ++ b)) := by
  refine ⟨?_, foldl_cbdAccept initCBD first parts, cbdAccept_append⟩
  have h := foldl_cbdAccept initCBD first (payload.map (fun b => ([b] : Bytes)))
  rw [flatten_map_singleton] at h
  rw [← h, List.foldl_map]

/-! ## The bencode codec (`bzrlib/util/_bencode_py.py`)

This section embeds the repository's own bencode implementation.  A Python
value built from ints, byte-strings, lists and dicts is embedded as a
`BValue`; a Python dict is represented canonically by its item list in
strictly ascending key order (the representation invariant `validB` below —
Python dict keys are unique, and item order is not observable), tuples and
`StaticTuple`s encode through `encode_list` and therefore share the `list`
constructor (and decode back as lists), and bools encode through
`encode_bool` as the ints 1/0.

The decoder mirrors `BDecoder`: index-based scanning is embedded as
suffix-splitting (`x.index('e', f)` becomes `splitAtByte 'e'`), Python
`int()` on the sliced substrings is modelled on the optional-sign decimal
forms the surrounding checks allow (exotic spellings such as leading `+` or
whitespace, which `int()` would also accept but no encoder output contains,
are rejected), and the recursive `decode_func` dispatch is fueled —
`bdecode` supplies one unit of fuel per input byte plus one, which the
round-trip theorem shows is always enough for encoder output. -/

inductive BValue where
  | int (i : Int)
  | str (s : Bytes)
  | list (items : List BValue)
  | dict (items : List (Bytes × BValue))

/-- Python `str(i)` for an integer. -/
def intRepr (i : Int) : Bytes :=
  if i < 0 then '-' :: natRepr i.natAbs else natRepr i.toNat

/-- Byte-wise lexicographic comparison: Python 2 `str` `<` (the order
`sorted` and the `lastkey >= k` check in `decode_dict` use). -/
def bytesLt : Bytes → Bytes → Bool
  | _, [] => false
  | [], _ :: _ => true
  | a :: as2, b :: bs2 =>
    if a.toNat < b.toNat then true
    else if b.toNat < a.toNat then false
    else bytesLt as2 bs2

/-- One insertion step of `sorted` on dict items (keys compared first;
ties cannot arise for items of an actual dict, whose keys are unique). -/
def insertPair (p : Bytes × BValue) : List (Bytes × BValue) → List (Bytes × BValue)
  | [] => [p]
  | q :: rest =>
    if bytesLt q.1 p.1 then q :: insertPair p rest
    else p :: q :: rest

/-- `sorted(x.items())` of `encode_dict`. -/
def sortPairs : List (Bytes × BValue) → List (Bytes × BValue)
  | [] => []
  | p :: rest => insertPair p (sortPairs rest)

theorem insertPair_sizeOf (p : Bytes × BValue) (l : List (Bytes × BValue)) :
    sizeOf (insertPair p l) = sizeOf (p :: l) := by
  induction l with
  | nil => rfl
  | cons q rest ih =>
    rw [insertPair]
    by_cases h : bytesLt q.1 p.1 = true
    · rw [if_pos h]
      simp only [List.cons.sizeOf_spec] at ih ⊢
      omega
    · rw [if_neg h]

theorem sortPairs_sizeOf (l : List (Bytes × BValue)) :
    sizeOf (sortPairs l) = sizeOf l := by
  induction l with
  | nil => rfl
  | cons p rest ih =>
    rw [sortPairs, insertPair_sizeOf]
    simp only [List.cons.sizeOf_spec]
    omega

mutual

/-- `bencode` dispatch: `encode_int`, `encode_string`, `encode_list`
(also used for tuples), `encode_dict` (items in sorted key order). -/
def bencodeVal : BValue → Bytes
  | .int i => 'i' :: (intRepr i ++ ['e'])
  | .str s => natRepr s.length ++ ':' :: s
  | .list items => 'l' :: (bencodeList items ++ ['e'])
  | .dict items => 'd' :: (bencodeDict (sortPairs items) ++ ['e'])
termination_by v => sizeOf v
decreasing_by
  all_goals simp only [BValue.list.sizeOf_spec, BValue.dict.sizeOf_spec, sortPairs_sizeOf]
  all_goals omega

def bencodeList : List BValue → Bytes
  | [] => []
  | v :: rest => bencodeVal v ++ bencodeList rest
termination_by l => sizeOf l
decreasing_by
  all_goals simp
  all_goals omega

def bencodeDict : List (Bytes × BValue) → Bytes
  | [] => []
  | (k, v) :: rest => (natRepr k.length ++ ':' :: k) ++ (bencodeVal v ++ bencodeDict rest)
termination_by l => sizeOf l
decreasing_by
  all_goals simp
  all_goals omega

end

/-- `encode_bool`: a bool encodes as `int(x)`. -/
def bencodeBool (b : Bool) : Bytes :=
  bencodeVal (.int (if b then 1 else 0))

/-- `x.index(t, f)` as suffix splitting: the bytes before the first
occurrence of `t` and the bytes after it; `none` when absent (Python raises
`ValueError`). -/
def splitAtByte (t : Char) : Bytes → Option (Bytes × Bytes)
  | [] => none
  | c :: cs =>
    if c = t then some ([], cs)
    else (splitAtByte t cs).map fun pr => (c :: pr.1, pr.2)

/-- The `x[f] == '-' and x[f+1] == '0'` rejection of `decode_int`. -/
def negZero : Bytes → Bool
  | a :: b :: _ => a == '-' && b == '0'
  | _ => false

/-- The `x[f] == '0' and colon != f+1` / `newf != f+1` leading-zero
rejection. -/
def leadingZero : Bytes → Bool
  | a :: _ :: _ => a == '0'
  | _ => false

/-- Python `int(s)` on the optional-sign decimal forms. -/
def parsePyInt (s : Bytes) : Option Int :=
  match s with
  | [] => none
  | c :: rest =>
    if c = '-' then (parseDigits rest).map (fun n : Nat => -(n : Int))
    else (parseDigits (c :: rest)).map (fun n : Nat => (n : Int))

/-- `decode_int` after the `i` tag: scan to `e`, reject `-0…` and leading
zeros, convert. -/
def decodeIntB (s : Bytes) : Option (BValue × Bytes) :=
  match splitAtByte 'e' s with
  | none => none
  | some (body, rest) =>
    if negZero body then none
    else if leadingZero body then none
    else (parsePyInt body).map fun n => (.int n, rest)

/-- `decode_string`: scan to `:`, reject a padded length, take that many
bytes (like the Python slice, a short read is not detected here but by the
callers running out of input). -/
def decodeStrB (s : Bytes) : Option (Bytes × Bytes) :=
  match splitAtByte ':' s with
  | none => none
  | some (lenStr, rest) =>
    if leadingZero lenStr then none
    else (parseDigits lenStr).map fun n => (rest.take n, rest.drop n)

/-- The `lastkey >= k` check of `decode_dict` (Python 2: `None` compares
below every string). -/
def keyOk (last : Option Bytes) (k : Bytes) : Bool :=
  match last with
  | none => true
  | some lk => bytesLt lk k

mutual

/-- The `decode_func` dispatch on the next tag byte. -/
def decodeValB : Nat → Bytes → Option (BValue × Bytes)
  | 0, _ => none
  | fuel + 1, s =>
    match s with
    | [] => none
    | c :: rest =>
      if c = 'i' then decodeIntB rest
      else if c = 'l' then
        (decodeItemsB fuel rest).map fun lr => (.list lr.1, lr.2)
      else if c = 'd' then
        (decodePairsB fuel none rest).map fun lr => (.dict lr.1, lr.2)
      else if isDigitCh c then
        (decodeStrB (c :: rest)).map fun pr => (.str pr.1, pr.2)
      else none

/-- The `decode_list` loop: elements until an `e`. -/
def decodeItemsB : Nat → Bytes → Option (List BValue × Bytes)
  | 0, _ => none
  | fuel + 1, s =>
    match s with
    | [] => none
    | c :: rest =>
      if c = 'e' then some ([], rest)
      else
        match decodeValB fuel (c :: rest) with
        | none => none
        | some (v, r) =>
          match decodeItemsB fuel r with
          | none => none
          | some (vs, r2) => some (v :: vs, r2)

/-- The `decode_dict` loop: key (a string), strictly above the previous
key, then value, until an `e`. -/
def decodePairsB : Nat → Option Bytes → Bytes → Option (List (Bytes × BValue) × Bytes)
  | 0, _, _ => none
  | fuel + 1, last, s =>
    match s with
    | [] => none
    | c :: rest =>
      if c = 'e' then some ([], rest)
      else
        match decodeStrB (c :: rest) with
        | none => none
        | some (k, r) =>
          if keyOk last k then
            match decodeValB fuel r with
            | none => none
            | some (v, r2) =>
              match decodePairsB fuel (some k) r2 with
              | none => none
              | some (kvs, r3) => some ((k, v) :: kvs, r3)
          else none

end

/-- `bdecode`: decode one value and require the whole input consumed.  The
fuel `s.length + 1` bounds the recursion depth of `decode_func`; the
round-trip theorem shows it never runs out on encoder output. -/
def bdecodeB (s : Bytes) : Option BValue :=
  match decodeValB (s.length + 1) s with
  | some (v, []) => some v
  | _ => none

/-- The canonical-representation invariant of values that stand for Python
data: dict item lists are in strictly ascending key order (as the items of
a Python dict, listed sorted, always are). -/
def sortedFrom (last : Option Bytes) : List (Bytes × BValue) → Bool
  | [] => true
  | (k, _) :: rest => keyOk last k && sortedFrom (some k) rest

mutual

def validB : BValue → Bool
  | .int _ => true
  | .str _ => true
  | .list items => validList items
  | .dict items => sortedFrom none items && validDict items

def validList : List BValue → Bool
  | [] => true
  | v :: rest => validB v && validList rest

def validDict : List (Bytes × BValue) → Bool
  | [] => true
  | (_, v) :: rest => validB v && validDict rest

end

/-! ### Round-trip of the bencode codec -/

theorem bytesLt_asymm : ∀ {a b : Bytes}, bytesLt a b = true → bytesLt b a = false := by
  intro a
  induction a with
  | nil =>
    intro b h
    cases b with
    | nil => simp [bytesLt] at h
    | cons y ys => rfl
  | cons x xs ih =>
    intro b h
    cases b with
    | nil => simp [bytesLt] at h
    | cons y ys =>
      rw [bytesLt] at h ⊢
      by_cases h1 : x.toNat < y.toNat
      · rw [if_neg (by omega), if_pos h1]
      · rw [if_neg h1] at h
        by_cases h2 : y.toNat < x.toNat
        · rw [if_pos h2] at h; exact absurd h (by simp)
        · rw [if_neg h2] at h
          rw [if_neg h2, if_neg h1]
          exact ih h

theorem insertPair_of_head {p q : Bytes × BValue} (rest : List (Bytes × BValue))
    (h : bytesLt q.1 p.1 = false) : insertPair p (q :: rest) = p :: q :: rest := by
  rw [insertPair, if_neg (by simp [h])]

theorem sortPairs_sorted : ∀ {l : List (Bytes × BValue)} {last : Option Bytes},
    sortedFrom last l = true → sortPairs l = l := by
  intro l
  induction l with
  | nil => intro last h; rfl
  | cons p rest ih =>
    intro last h
    obtain ⟨pk, pv⟩ := p
    rw [sortedFrom, Bool.and_eq_true] at h
    obtain ⟨h1, h2⟩ := h
    rw [sortPairs, ih h2]
    cases rest with
    | nil => rfl
    | cons q rest2 =>
      obtain ⟨qk, qv⟩ := q
      rw [sortedFrom, Bool.and_eq_true] at h2
      have hlt : bytesLt pk qk = true := h2.1
      exact insertPair_of_head rest2 (bytesLt_asymm hlt)

theorem splitAtByte_append (t : Char) :
    ∀ (pre post : Bytes), (∀ c ∈ pre, c ≠ t) →
      splitAtByte t (pre ++ t :: post) = some (pre, post) := by
  intro pre
  induction pre with
  | nil => intro post h; rw [List.nil_append, splitAtByte, if_pos rfl]
  | cons c cs ih =>
    intro post h
    have hc : c ≠ t := h c (List.mem_cons_self c cs)
    rw [List.cons_append, splitAtByte, if_neg hc,
      ih post (fun d hd => h d (List.mem_cons_of_mem c hd))]
    rfl

theorem natRepr_head (n : Nat) :
    ∃ c cs, natRepr n = c :: cs ∧ isDigitCh c = true ∧ (c = '0' → cs = []) := by
  by_cases h0 : n = 0
  · exact ⟨'0', [], by simp [natRepr, h0], by decide, fun _ => rfl⟩
  · obtain ⟨c, cs, hc⟩ := List.exists_cons_of_ne_nil (natRepr_ne_nil n)
    refine ⟨c, cs, hc, mem_natRepr_isDigitCh (hc ▸ List.mem_cons_self c cs), ?_⟩
    intro hcz
    exfalso
    have hds : Nat.digits 10 n ≠ [] := Nat.digits_ne_nil_iff_ne_zero.mpr h0
    have hhead : (natRepr n).head? = some c := by rw [hc]; rfl
    rw [natRepr, if_neg h0, List.head?_reverse, List.getLast?_map,
      List.getLast?_eq_getLast _ hds] at hhead
    have hdc : digitChar ((Nat.digits 10 n).getLast hds) = c := by
      simpa using hhead
    have hne0 : (Nat.digits 10 n).getLast hds ≠ 0 := Nat.getLast_digit_ne_zero 10 h0
    have hlt : (Nat.digits 10 n).getLast hds < 10 :=
      Nat.digits_lt_base (by norm_num) (List.getLast_mem hds)
    subst hcz
    set d := (Nat.digits 10 n).getLast hds with hd
    clear_value d
    interval_cases d
    · exact hne0 rfl
    all_goals exact absurd hdc (by decide)

theorem natRepr_eq_zero_cons {n : Nat} {cs : Bytes} (h : natRepr n = '0' :: cs) :
    n = 0 ∧ cs = [] := by
  obtain ⟨c, cs', hc, hdig, hz⟩ := natRepr_head n
  rw [h] at hc
  injection hc with h1 h2
  have hcs : cs = [] := by rw [h2]; exact hz h1.symm
  subst hcs
  have hp := parseDigits_natRepr n
  rw [h] at hp
  have hval : parseDigits ['0'] = some 0 := by decide
  rw [hval] at hp
  exact ⟨(Option.some.inj hp).symm, rfl⟩

theorem leadingZero_natRepr (n : Nat) : leadingZero (natRepr n) = false := by
  obtain ⟨c, cs, hc, hdig, hz⟩ := natRepr_head n
  rw [hc]
  cases cs with
  | nil => rfl
  | cons b bs =>
    have hc0 : c ≠ '0' := fun h => absurd (hz h) (List.cons_ne_nil b bs)
    simp [leadingZero, hc0]

theorem natRepr_no_colon {n : Nat} : ∀ c ∈ natRepr n, c ≠ ':' :=
  fun _ hc => isDigitCh_ne_of_lt (mem_natRepr_isDigitCh hc) (Or.inr (by decide))

theorem decodeStrB_encode (s rest : Bytes) :
    decodeStrB (natRepr s.length ++ ':' :: (s ++ rest)) = some (s, rest) := by
  rw [decodeStrB, splitAtByte_append ':' (natRepr s.length) (s ++ rest) natRepr_no_colon]
  dsimp only
  rw [if_neg (by rw [leadingZero_natRepr]; exact Bool.false_ne_true), parseDigits_natRepr]
  dsimp only [Option.map_some']
  rw [List.take_left, List.drop_left]

theorem mem_intRepr {i : Int} {c : Char} (h : c ∈ intRepr i) :
    c = '-' ∨ isDigitCh c = true := by
  rw [intRepr] at h
  by_cases hi : i < 0
  · rw [if_pos hi] at h
    rcases List.mem_cons.mp h with h1 | h2
    · exact Or.inl h1
    · exact Or.inr (mem_natRepr_isDigitCh h2)
  · rw [if_neg hi] at h
    exact Or.inr (mem_natRepr_isDigitCh h)

theorem intRepr_no_e {i : Int} : ∀ c ∈ intRepr i, c ≠ 'e' := by
  intro c hc
  rcases mem_intRepr hc with h | h
  · rw [h]; decide
  · exact isDigitCh_ne_of_lt h (Or.inr (by decide))

theorem negZero_intRepr (i : Int) : negZero (intRepr i) = false := by
  rw [intRepr]
  by_cases hi : i < 0
  · rw [if_pos hi]
    have hne : i.natAbs ≠ 0 := by omega
    obtain ⟨c, cs, hc, hdig, hz⟩ := natRepr_head i.natAbs
    have hc0 : c ≠ '0' := by
      intro h
      rw [h] at hc
      exact hne (natRepr_eq_zero_cons hc).1
    rw [hc]
    simp [negZero, hc0]
  · rw [if_neg hi]
    obtain ⟨c, cs, hc, hdig, hz⟩ := natRepr_head i.toNat
    have hcm : c ≠ '-' := isDigitCh_ne_of_lt hdig (Or.inl (by decide))
    rw [hc]
    cases cs with
    | nil => rfl
    | cons b bs => simp [negZero, hcm]

theorem leadingZero_intRepr (i : Int) : leadingZero (intRepr i) = false := by
  rw [intRepr]
  by_cases hi : i < 0
  · rw [if_pos hi]
    obtain ⟨c, cs, hc, hdig, hz⟩ := natRepr_head i.natAbs
    rw [hc]
    simp [leadingZero]
  · rw [if_neg hi]
    exact leadingZero_natRepr i.toNat

theorem parsePyInt_intRepr (i : Int) : parsePyInt (intRepr i) = some i := by
  rw [intRepr]
  by_cases hi : i < 0
  · rw [if_pos hi, parsePyInt]
    rw [if_pos rfl, parseDigits_natRepr]
    simp only [Option.map_some', Option.some.injEq]
    omega
  · rw [if_neg hi]
    obtain ⟨c, cs, hc, hdig, hz⟩ := natRepr_head i.toNat
    have hcm : c ≠ '-' := isDigitCh_ne_of_lt hdig (Or.inl (by decide))
    rw [hc, parsePyInt, if_neg hcm, ← hc, parseDigits_natRepr]
    simp only [Option.map_some', Option.some.injEq]
    omega

theorem decodeIntB_encode (i : Int) (rest : Bytes) :
    decodeIntB (intRepr i ++ 'e' :: rest) = some (BValue.int i, rest) := by
  rw [decodeIntB, splitAtByte_append 'e' (intRepr i) rest intRepr_no_e]
  dsimp only
  rw [if_neg (by rw [negZero_intRepr]; exact Bool.false_ne_true),
    if_neg (by rw [leadingZero_intRepr]; exact Bool.false_ne_true),
    parsePyInt_intRepr]
  rfl

theorem bencodeVal_int (i : Int) :
    bencodeVal (BValue.int i) = 'i' :: (intRepr i ++ ['e']) := by
  rw [bencodeVal]

theorem bencodeVal_str (s : Bytes) :
    bencodeVal (BValue.str s) = natRepr s.length ++ ':' :: s := by
  rw [bencodeVal]

theorem bencodeVal_list (items : List BValue) :
    bencodeVal (BValue.list items) = 'l' :: (bencodeList items ++ ['e']) := by
  rw [bencodeVal]

theorem bencodeVal_dict (items : List (Bytes × BValue)) :
    bencodeVal (BValue.dict items) = 'd' :: (bencodeDict (sortPairs items) ++ ['e']) := by
  rw [bencodeVal]

theorem bencodeList_nil : bencodeList ([] : List BValue) = [] := by
  rw [bencodeList]

theorem bencodeList_cons (v : BValue) (rest : List BValue) :
    bencodeList (v :: rest) = bencodeVal v ++ bencodeList rest := by
  rw [bencodeList]

theorem bencodeDict_nil : bencodeDict ([] : List (Bytes × BValue)) = [] := by
  rw [bencodeDict]

theorem bencodeDict_cons (k : Bytes) (v : BValue) (rest : List (Bytes × BValue)) :
    bencodeDict ((k, v) :: rest) =
      (natRepr k.length ++ ':' :: k) ++ (bencodeVal v ++ bencodeDict rest) := by
  rw [bencodeDict]

theorem two_le_bencodeVal_length (v : BValue) : 2 ≤ (bencodeVal v).length := by
  cases v with
  | int i =>
    rw [bencodeVal_int]
    simp
  | str s =>
    rw [bencodeVal_str]
    have := natRepr_ne_nil s.length
    simp only [List.length_append, List.length_cons]
    have : 1 ≤ (natRepr s.length).length := List.length_pos.mpr this
    omega
  | list items =>
    rw [bencodeVal_list]
    simp
  | dict items =>
    rw [bencodeVal_dict]
    simp

theorem bencHeadNotE (v : BValue) :
    ∃ c cs, bencodeVal v = c :: cs ∧ c ≠ 'e' := by
  cases v with
  | int i => exact ⟨'i', _, bencodeVal_int i, by decide⟩
  | str s =>
    obtain ⟨c, cs, hc, hdig, _⟩ := natRepr_head s.length
    refine ⟨c, cs ++ ':' :: s, ?_, isDigitCh_ne_of_lt hdig (Or.inr (by decide))⟩
    rw [bencodeVal_str, hc]
    rfl
  | list items => exact ⟨'l', _, bencodeVal_list items, by decide⟩
  | dict items => exact ⟨'d', _, bencodeVal_dict items, by decide⟩

theorem validB_int (i : Int) : validB (BValue.int i) = true := by rw [validB]
theorem validB_list (items : List BValue) :
    validB (BValue.list items) = validList items := by rw [validB]
theorem validB_dict (items : List (Bytes × BValue)) :
    validB (BValue.dict items) = (sortedFrom none items && validDict items) := by
  rw [validB]
theorem validList_cons (v : BValue) (rest : List BValue) :
    validList (v :: rest) = (validB v && validList rest) := by rw [validList]
theorem validDict_cons (k : Bytes) (x : BValue) (rest : List (Bytes × BValue)) :
    validDict ((k, x) :: rest) = (validB x && validDict rest) := by rw [validDict]

theorem decodeRT (N : Nat) :
    (∀ v : BValue, sizeOf v ≤ N → validB v = true →
      ∀ fuel rest, (bencodeVal v).length ≤ fuel →
        decodeValB fuel (bencodeVal v ++ rest) = some (v, rest)) ∧
    (∀ items : List BValue, sizeOf items ≤ N → validList items = true →
      ∀ fuel rest, (bencodeList items).length + 1 ≤ fuel →
        decodeItemsB fuel (bencodeList items ++ 'e' :: rest) = some (items, rest)) ∧
    (∀ kvs : List (Bytes × BValue), ∀ last : Option Bytes, sizeOf kvs ≤ N →
      sortedFrom last kvs = true → validDict kvs = true →
      ∀ fuel rest, (bencodeDict kvs).length + 1 ≤ fuel →
        decodePairsB fuel last (bencodeDict kvs ++ 'e' :: rest) = some (kvs, rest)) := by
  induction N using Nat.strong_induction_on with
  | _ N IH =>
    refine ⟨?_, ?_, ?_⟩
    · -- values
      intro v hsz hval fuel rest hfuel
      have h2 := two_le_bencodeVal_length v
      obtain ⟨f, rfl⟩ : ∃ f, fuel = f + 1 := ⟨fuel - 1, by omega⟩
      cases v with
      | int i =>
        rw [bencodeVal_int] at hfuel ⊢
        have hsh : ('i' :: (intRepr i ++ ['e'])) ++ rest =
            'i' :: (intRepr i ++ 'e' :: rest) := by simp
        rw [hsh, decodeValB, if_pos rfl]
        exact decodeIntB_encode i rest
      | str s =>
        rw [bencodeVal_str] at hfuel ⊢
        obtain ⟨c, cs, hc, hdig, -⟩ := natRepr_head s.length
        have hsh : (natRepr s.length ++ ':' :: s) ++ rest =
            c :: (cs ++ ':' :: (s ++ rest)) := by
          rw [hc]; simp
        rw [hsh, decodeValB,
          if_neg (isDigitCh_ne_of_lt hdig (Or.inr (by decide))),
          if_neg (isDigitCh_ne_of_lt hdig (Or.inr (by decide))),
          if_neg (isDigitCh_ne_of_lt hdig (Or.inr (by decide)))]
        rw [if_pos hdig]
        have hback : c :: (cs ++ ':' :: (s ++ rest)) =
            natRepr s.length ++ ':' :: (s ++ rest) := by
          rw [hc]; simp
        rw [hback, decodeStrB_encode]
        rfl
      | list items =>
        rw [bencodeVal_list] at hfuel ⊢
        rw [validB_list] at hval
        have hszlt : sizeOf items < N := by
          have := BValue.list.sizeOf_spec items
          omega
        obtain ⟨-, Qm, -⟩ := IH (sizeOf items) hszlt
        have hsh : ('l' :: (bencodeList items ++ ['e'])) ++ rest =
            'l' :: (bencodeList items ++ 'e' :: rest) := by simp
        rw [hsh, decodeValB, if_neg (by decide), if_pos rfl]
        rw [Qm items le_rfl hval f rest (by
          simp only [List.length_cons, List.length_append, List.length_singleton] at hfuel
          omega)]
        rfl
      | dict items =>
        rw [bencodeVal_dict] at hfuel ⊢
        rw [validB_dict, Bool.and_eq_true] at hval
        obtain ⟨hsort, hvd⟩ := hval
        rw [sortPairs_sorted hsort] at hfuel ⊢
        have hszlt : sizeOf items < N := by
          have := BValue.dict.sizeOf_spec items
          omega
        obtain ⟨-, -, Rm⟩ := IH (sizeOf items) hszlt
        have hsh : ('d' :: (bencodeDict items ++ ['e'])) ++ rest =
            'd' :: (bencodeDict items ++ 'e' :: rest) := by simp
        rw [hsh, decodeValB, if_neg (by decide), if_neg (by decide), if_pos rfl]
        rw [Rm items none le_rfl hsort hvd f rest (by
          simp only [List.length_cons, List.length_append, List.length_singleton] at hfuel
          omega)]
        rfl
    · -- list items
      intro items hsz hval fuel rest hfuel
      obtain ⟨f, rfl⟩ : ∃ f, fuel = f + 1 := ⟨fuel - 1, by omega⟩
      cases items with
      | nil =>
        rw [bencodeList_nil, List.nil_append, decodeItemsB, if_pos rfl]
      | cons v vs =>
        rw [bencodeList_cons] at hfuel ⊢
        rw [validList_cons, Bool.and_eq_true] at hval
        obtain ⟨hv, hvs⟩ := hval
        have hsv : sizeOf v < N := by
          have := List.cons.sizeOf_spec v vs
          omega
        have hsvs : sizeOf vs < N := by
          have := List.cons.sizeOf_spec v vs
          omega
        obtain ⟨Pm, -, -⟩ := IH (sizeOf v) hsv
        obtain ⟨-, Qm, -⟩ := IH (sizeOf vs) hsvs
        have h2 := two_le_bencodeVal_length v
        obtain ⟨c, cs, hc, hcne⟩ := bencHeadNotE v
        have hsh : (bencodeVal v ++ bencodeList vs) ++ 'e' :: rest =
            c :: (cs ++ (bencodeList vs ++ 'e' :: rest)) := by
          rw [hc]; simp
        rw [hsh, decodeItemsB, if_neg hcne]
        have hback : c :: (cs ++ (bencodeList vs ++ 'e' :: rest)) =
            bencodeVal v ++ (bencodeList vs ++ 'e' :: rest) := by
          rw [hc]; simp
        rw [hback]
        rw [Pm v le_rfl hv f (bencodeList vs ++ 'e' :: rest) (by
          simp only [List.length_append] at hfuel
          omega)]
        dsimp only
        rw [Qm vs le_rfl hvs f rest (by
          simp only [List.length_append] at hfuel
          omega)]
    · -- dict pairs
      intro kvs last hsz hsort hvd fuel rest hfuel
      obtain ⟨f, rfl⟩ : ∃ f, fuel = f + 1 := ⟨fuel - 1, by omega⟩
      cases kvs with
      | nil =>
        rw [bencodeDict_nil, List.nil_append, decodePairsB, if_pos rfl]
      | cons p rest' =>
        obtain ⟨k, x⟩ := p
        rw [bencodeDict_cons] at hfuel ⊢
        rw [sortedFrom, Bool.and_eq_true] at hsort
        obtain ⟨hkey, hsort'⟩ := hsort
        rw [validDict_cons, Bool.and_eq_true] at hvd
        obtain ⟨hx, hvd'⟩ := hvd
        have hsx : sizeOf x < N := by
          have h1 := List.cons.sizeOf_spec (k, x) rest'
          have h2 : sizeOf (k, x) = 1 + sizeOf k + sizeOf x := rfl
          omega
        have hsr : sizeOf rest' < N := by
          have h1 := List.cons.sizeOf_spec (k, x) rest'
          omega
        obtain ⟨Pm, -, -⟩ := IH (sizeOf x) hsx
        obtain ⟨-, -, Rm⟩ := IH (sizeOf rest') hsr
        have h2 := two_le_bencodeVal_length x
        have hnr1 : 1 ≤ (natRepr k.length).length :=
          List.length_pos.mpr (natRepr_ne_nil k.length)
        obtain ⟨c, cs, hc, hdig, -⟩ := natRepr_head k.length
        have hsh : ((natRepr k.length ++ ':' :: k) ++ (bencodeVal x ++ bencodeDict rest')) ++
              'e' :: rest =
            c :: (cs ++ ':' :: (k ++ (bencodeVal x ++ (bencodeDict rest' ++ 'e' :: rest)))) := by
          rw [hc]; simp
        rw [hsh, decodePairsB,
          if_neg (isDigitCh_ne_of_lt hdig (Or.inr (by decide)))]
        have hback : c :: (cs ++ ':' :: (k ++ (bencodeVal x ++ (bencodeDict rest' ++ 'e' :: rest)))) =
            natRepr k.length ++ ':' :: (k ++ (bencodeVal x ++ (bencodeDict rest' ++ 'e' :: rest))) := by
          rw [hc]; simp
        rw [hback, decodeStrB_encode]
        dsimp only
        rw [hkey]
        rw [if_pos rfl]
        rw [Pm x le_rfl hx f (bencodeDict rest' ++ 'e' :: rest) (by
          simp only [List.length_append, List.length_cons] at hfuel
          omega)]
        dsimp only
        rw [Rm rest' (some k) le_rfl hsort' hvd' f rest (by
          simp only [List.length_append, List.length_cons] at hfuel
          omega)]

theorem bdecodeB_bencodeVal {v : BValue} (h : validB v = true) :
    bdecodeB (bencodeVal v) = some v := by
  obtain ⟨P, -, -⟩ := decodeRT (sizeOf v)
  have hP := P v le_rfl h ((bencodeVal v).length + 1) [] (by omega)
  rw [List.append_nil] at hP
  rw [bdecodeB, hP]

/-- C9: round-trip of the bencode codec.  For every value built from ints,
byte-strings, lists and dicts (a dict represented canonically by its item
list in strictly ascending key order, the `validB` invariant that holds of
every Python dict's sorted item list), decoding the encoding gives back
exactly the value: the encoder emits dict items in sorted key order, which
is exactly the order the decoder's strictly-ascending-key check requires.
Tuples and `StaticTuple`s go through `encode_list` and therefore share the
`list` constructor here — they encode like lists and decode back as lists —
and a bool encodes via `encode_bool` as `int(x)`, so `True`/`False` decode
back as the ints 1/0. -/
theorem bencode_roundtrip :
    (∀ v : BValue, validB v = true → bdecodeB (bencodeVal v) = some v) ∧
    bdecodeB (bencodeBool true) = some (BValue.int 1) ∧
    bdecodeB (bencodeBool false) = some (BValue.int 0) := by
  refine ⟨fun v h => bdecodeB_bencodeVal h, ?_, ?_⟩
  · rw [bencodeBool]
    exact bdecodeB_bencodeVal (validB_int 1)
  · rw [bencodeBool]
    exact bdecodeB_bencodeVal (validB_int 0)

/-- Witness for C9: the round-trip at a concrete nested value — a dict with
an int, a list holding an int and a string, and an empty inner dict. -/
theorem bencode_roundtrip_witness :
    validB (BValue.dict
      [(['a'], BValue.int (-5)),
       (['b', 'b'], BValue.list [BValue.int 0, BValue.str ['h', 'i']]),
       (['c'], BValue.dict [])]) = true ∧
    bdecodeB (bencodeVal (BValue.dict
      [(['a'], BValue.int (-5)),
       (['b', 'b'], BValue.list [BValue.int 0, BValue.str ['h', 'i']]),
       (['c'], BValue.dict [])])) = some (BValue.dict
      [(['a'], BValue.int (-5)),
       (['b', 'b'], BValue.list [BValue.int 0, BValue.str ['h', 'i']]),
       (['c'], BValue.dict [])]) :=
  ⟨by decide, bencode_roundtrip.1 _ (by decide)⟩


end Bazaar
